import Mathlib

/-!
Verification of the logic-prover repository (parser.py): a shallow embedding of
the expression model, the infix formula parser and the natural-deduction proof
checker, together with theorems settling the specification claims.

Conventions of the embedding:
* Python strings are `List Char`; Python lists are Lean lists whose indexing
  (including the negative-index wrap-around) is `pyGet`, returning
  `Option.none` exactly when Python raises `IndexError`.
* Functions that can raise return `PyResult`; `PyResult.crash` marks a raised
  exception, `PyResult.ok` a normal return.
* Python `==` on expressions dispatches to the left operand's `__eq__`; this
  (asymmetric) relation is `pyEq`.
* Python `set` values holding assumption indices are `Finset Int`.
-/

namespace LogicProver

/-- Outcome of running a piece of Python code: either an uncaught exception
(`crash`, e.g. `IndexError` or `TypeError`) or a returned value. -/
inductive PyResult (α : Type) where
  | crash : PyResult α
  | ok (val : α) : PyResult α
deriving DecidableEq, Repr

/-- Python list indexing `l[i]`: negative indices count from the end;
an index outside `[-len, len)` raises `IndexError` (modelled as `none`). -/
def pyGet {α : Type} (l : List α) (i : Int) : Option α :=
  let j : Int := if i < 0 then (l.length : Int) + i else i
  if j < 0 then Option.none else l[j.toNat]?

/-- The expression tree of parser.py: `Atom(name)`, the contradiction constant
`Contr` (an `Atom` subclass whose name is `"⊥"`), `NotExpr`, `AndExpr`,
`OrExpr`, `ImpExpr`. -/
inductive Expr where
  | atom (name : String) : Expr
  | contr : Expr
  | not (content : Expr) : Expr
  | and (left right : Expr) : Expr
  | or (left right : Expr) : Expr
  | imp (left right : Expr) : Expr
deriving DecidableEq, Repr

/-- Python `a == b` on expressions.  CPython dispatches to the left
operand's `__eq__`, except that when the right operand's type is a proper
subclass of the left's that overrides the comparison, the subclass's method
runs first.  `Contr` subclasses `Atom` and overrides `__eq__` with
`isinstance(other, Contr)`, so `Atom("⊥") == Contr()` calls `Contr.__eq__`
first, which returns a definitive `False` (and `Contr() == Atom("⊥")` is
likewise `False`).  `Atom.__eq__` tests `isinstance(other, Atom)` and name
equality; `NotExpr.__eq__` tests `isinstance(other, NotExpr)`;
`BinaryExpr.__eq__` tests `isinstance(self, other.__class__)`; children are
compared recursively.  No other pair of classes is in a subclass relation,
so no other case is affected by the reflected dispatch. -/
def pyEq : Expr → Expr → Bool
  | Expr.atom n, Expr.atom m => n == m
  | Expr.atom _, Expr.contr => false
  | Expr.atom _, _ => false
  | Expr.contr, Expr.contr => true
  | Expr.contr, _ => false
  | Expr.not a, Expr.not b => pyEq a b
  | Expr.not _, _ => false
  | Expr.and a b, Expr.and c d => pyEq a c && pyEq b d
  | Expr.and _ _, _ => false
  | Expr.or a b, Expr.or c d => pyEq a c && pyEq b d
  | Expr.or _ _, _ => false
  | Expr.imp a b, Expr.imp c d => pyEq a c && pyEq b d
  | Expr.imp _ _, _ => false

/-- The `priority` attribute of `OperatorExpr` nodes (`NotExpr` 60,
`AndExpr` 50, `OrExpr` 20, `ImpExpr` 5); atoms carry no priority. -/
def rprio : Expr → Nat
  | Expr.not _ => 60
  | Expr.and _ _ => 50
  | Expr.or _ _ => 20
  | Expr.imp _ _ => 5
  | _ => 0

/-- `isinstance(e, OperatorExpr)`. -/
def isOpExpr : Expr → Bool
  | Expr.not _ => true
  | Expr.and _ _ => true
  | Expr.or _ _ => true
  | Expr.imp _ _ => true
  | _ => false

/-- Whether `__str__` wraps child `e` in parentheses under a parent of
priority `p`: `isinstance(e, OperatorExpr) and e.priority < p`. -/
def parenAt (e : Expr) (p : Nat) : Bool :=
  isOpExpr e && decide (rprio e < p)

/-- Wrap a rendered child in parentheses when the flag is set. -/
def wrapIf : Bool → List Char → List Char
  | true, s => '(' :: (s ++ [')'])
  | false, s => s

/-- `str(e)`: `Atom.__str__` returns the name, `NotExpr.__str__` returns
`~inside`, `BinaryExpr.__str__` returns `left symbol right` separated by
single spaces, parenthesizing any operator child of strictly lower
priority. -/
def strExpr : Expr → List Char
  | Expr.atom n => n.data
  | Expr.contr => ['⊥']
  | Expr.not a => '~' :: wrapIf (parenAt a 60) (strExpr a)
  | Expr.and a b =>
      wrapIf (parenAt a 50) (strExpr a) ++ ' ' :: '^' :: ' ' :: wrapIf (parenAt b 50) (strExpr b)
  | Expr.or a b =>
      wrapIf (parenAt a 20) (strExpr a) ++ ' ' :: 'v' :: ' ' :: wrapIf (parenAt b 20) (strExpr b)
  | Expr.imp a b =>
      wrapIf (parenAt a 5) (strExpr a) ++ ' ' :: '→' :: ' ' :: wrapIf (parenAt b 5) (strExpr b)

/-! ### The infix parser, phase 1: infixToPrefix -/

/-- Membership in `BIN_OPS` (`{'→': 1, 'v': 2, '^': 3}`). -/
def isBinaryOperator (c : Char) : Bool := c == '→' || c == 'v' || c == '^'

/-- Membership in `UNI_OPS` (`{'~': 4}`). -/
def isUnaryOperator (c : Char) : Bool := c == '~'

/-- `getPriority` from parser.py: dictionary value, or 0 for any other
character (in particular `'('`). -/
def getPriority (c : Char) : Nat :=
  if c == '→' then 1 else if c == 'v' then 2 else if c == '^' then 3
  else if c == '~' then 4 else 0

/-- Models `extractGroup` from parser.py.  The operator `op` has already been
popped from the operator stack by the caller's loop; both stacks are
head-first (head = most recently pushed).  A unary operator with an empty
operand stack returns the bare operator (the source's early `return op`);
a binary operator popping an empty operand stack raises `IndexError`
(`Option.none` here).  Result: the combined group and the remaining
operand stack. -/
def extractGroup (op : Char) (operands : List (List Char)) :
    Option (List Char × List (List Char)) :=
  if isUnaryOperator op then
    match operands with
    | [] => some ([op], [])
    | op1 :: rest => some (op :: op1, rest)
  else
    match operands with
    | op1 :: op2 :: rest => some (op :: (op2 ++ op1), rest)
    | _ => Option.none

/-- The `while len(operators) > 0 and getPriority(cur) <= getPriority(operators[-1])`
reduction loop run before pushing a binary operator `cur`. -/
def popReduce (cur : Char) : List Char → List (List Char) →
    PyResult (List Char × List (List Char))
  | [], operands => .ok ([], operands)
  | op :: ops, operands =>
    if getPriority cur ≤ getPriority op then
      match extractGroup op operands with
      | Option.none => .crash
      | some (tmp, operands') => popReduce cur ops (tmp :: operands')
    else .ok (op :: ops, operands)

/-- The `while len(operators) > 0 and operators[-1] != '('` loop run on a
closing parenthesis, followed by `operators.pop()` (which raises when the
operator stack has been exhausted without finding `'('`). -/
def closeParen : List Char → List (List Char) →
    PyResult (List Char × List (List Char))
  | [], _ => .crash
  | op :: ops, operands =>
    if op = '(' then .ok (ops, operands)
    else
      match extractGroup op operands with
      | Option.none => .crash
      | some (tmp, operands') => closeParen ops (tmp :: operands')

/-- The final `while len(operators) > 0` drain loop of infixToPrefix. -/
def drainOps : List Char → List (List Char) → PyResult (List (List Char))
  | [], operands => .ok operands
  | op :: ops, operands =>
    match extractGroup op operands with
    | Option.none => .crash
    | some (tmp, operands') => drainOps ops (tmp :: operands')

/-- The character loop of infixToPrefix over the two stacks. -/
def itpLoop : List Char → List Char → List (List Char) →
    PyResult (List Char × List (List Char))
  | [], operators, operands => .ok (operators, operands)
  | cur :: rest, operators, operands =>
    if cur = '(' then itpLoop rest (cur :: operators) operands
    else if cur = ')' then
      match closeParen operators operands with
      | .crash => .crash
      | .ok (ops', opnds') => itpLoop rest ops' opnds'
    else if !(isBinaryOperator cur || isUnaryOperator cur) then
      itpLoop rest operators ([cur] :: operands)
    else if isBinaryOperator cur then
      match popReduce cur operators operands with
      | .crash => .crash
      | .ok (ops', opnds') => itpLoop rest (cur :: ops') opnds'
    else itpLoop rest (cur :: operators) operands

/-- Models `infixToPrefix` from parser.py: run the character loop, drain the
operator stack, and return the top of the operand stack (`operands[-1]`,
which raises on an empty stack). -/
def itp (s : List Char) : PyResult (List Char) :=
  match itpLoop s [] [] with
  | .crash => .crash
  | .ok (operators, operands) =>
    match drainOps operators operands with
    | .crash => .crash
    | .ok [] => .crash
    | .ok (x :: _) => .ok x

/-! ### The infix parser, phase 2: tree construction in parseExpr -/

/-- The head slot (`last[0]`) of a frame on parseExpr's stack: either an
expression class pushed for an operator symbol, or an `Atom` object pushed
when the stack was empty. -/
inductive FrameHead where
  | opTag (symbol : Char) : FrameHead
  | atomHead (e : Expr) : FrameHead
deriving DecidableEq, Repr

/-- A frame `[head, child₁, child₂, ...]` on parseExpr's stack. -/
structure Frame where
  head : FrameHead
  children : List Expr
deriving DecidableEq, Repr

/-- Membership in `symbolToCls`. -/
def isSym (c : Char) : Bool := c == '~' || c == '^' || c == 'v' || c == '→'

/-- The binary classes of `symbolToCls`. -/
def isBinSym (c : Char) : Bool := c == '^' || c == 'v' || c == '→'

/-- Instantiating the binary class registered for symbol `c`. -/
def mkBin (c : Char) (a b : Expr) : Expr :=
  if c == '^' then Expr.and a b else if c == 'v' then Expr.or a b else Expr.imp a b

/-- Appending a child `x` to the top frame and running parseExpr's
`while True` saturation loop: a binary frame with two children (Python
`len(last) == 3`) or a `NotExpr` frame with one child (`len(last) == 2`)
is popped, instantiated and appended as a child below; compiling with an
empty remaining stack returns the result (`Sum.inl`).  A frame headed by
an `Atom` object breaks the loop. -/
def cascadeInto (x : Expr) : List Frame → Sum Expr (List Frame)
  | [] => Sum.inl x
  | f :: fs =>
    match f.head with
    | FrameHead.atomHead _ => Sum.inr ({ f with children := f.children ++ [x] } :: fs)
    | FrameHead.opTag c =>
      if isBinSym c then
        match f.children with
        | [a] => cascadeInto (mkBin c a x) fs
        | [] => Sum.inr ({ f with children := [x] } :: fs)
        | _ => Sum.inr ({ f with children := f.children ++ [x] } :: fs)
      else
        match f.children with
        | [] => cascadeInto (Expr.not x) fs
        | _ => Sum.inr ({ f with children := f.children ++ [x] } :: fs)

/-- The character loop of parseExpr over the prefix string: an operator
symbol pushes a fresh frame; any other character is appended as an `Atom`
child (or starts an `Atom`-headed frame on an empty stack); a compilation
that empties the stack returns immediately; falling off the end of the
loop returns `None`. -/
def treeLoop : List Char → List Frame → Option Expr
  | [], _ => Option.none
  | c :: cs, stack =>
    if isSym c then treeLoop cs (⟨FrameHead.opTag c, []⟩ :: stack)
    else
      match stack with
      | [] => treeLoop cs [⟨FrameHead.atomHead (Expr.atom (String.mk [c])), []⟩]
      | f :: fs =>
        match cascadeInto (Expr.atom (String.mk [c])) (f :: fs) with
        | Sum.inl result => some result
        | Sum.inr stack' => treeLoop cs stack'

/-- Fuelled version of Python `str.replace(pat, repl)` (left-to-right,
non-overlapping); the fuel only serves to make the recursion structural and
is in surplus whenever it exceeds the string length. -/
def pyReplaceF : Nat → List Char → List Char → List Char → List Char
  | 0, _, _, s => s
  | _ + 1, _, _, [] => []
  | fuel + 1, pat, repl, c :: cs =>
    if !pat.isEmpty && pat.isPrefixOf (c :: cs) then
      repl ++ pyReplaceF fuel pat repl ((c :: cs).drop pat.length)
    else c :: pyReplaceF fuel pat repl cs

/-- Python `s.replace(pat, repl)` for a non-empty pattern. -/
def pyReplace (pat repl s : List Char) : List Char :=
  pyReplaceF (s.length + 1) pat repl s

/-- Models `parseExpr` from parser.py: an empty string returns `None`;
otherwise `-->` and `->` are rewritten to `→`, spaces are removed, the
string is linearized by infixToPrefix and the prefix string is folded into
an expression tree. -/
def parseExpr (s : List Char) : PyResult (Option Expr) :=
  if s.isEmpty then .ok Option.none
  else
    let s1 := pyReplace ['-', '-', '>'] ['→'] s
    let s2 := pyReplace ['-', '>'] ['→'] s1
    let s3 := pyReplace [' '] [] s2
    match itp s3 with
    | .crash => .crash
    | .ok pre => .ok (treeLoop pre [])

/-! ### Round-trip infrastructure

Derived descriptions of the strings the renderer produces and of the parser's
stack states while consuming them, used to settle the parse-render round-trip
claim. -/

/-- `str(e)` with the spaces around binary symbols removed: the string
`parseExpr` actually feeds to infixToPrefix when given `strExpr e`. -/
def strNS : Expr → List Char
  | Expr.atom n => n.data
  | Expr.contr => ['⊥']
  | Expr.not a => '~' :: wrapIf (parenAt a 60) (strNS a)
  | Expr.and a b =>
      wrapIf (parenAt a 50) (strNS a) ++ '^' :: wrapIf (parenAt b 50) (strNS b)
  | Expr.or a b =>
      wrapIf (parenAt a 20) (strNS a) ++ 'v' :: wrapIf (parenAt b 20) (strNS b)
  | Expr.imp a b =>
      wrapIf (parenAt a 5) (strNS a) ++ '→' :: wrapIf (parenAt b 5) (strNS b)

/-- The Polish (prefix) encoding of an expression: the string infixToPrefix
produces for a rendered expression. -/
def polish : Expr → List Char
  | Expr.atom n => n.data
  | Expr.contr => ['⊥']
  | Expr.not a => '~' :: polish a
  | Expr.and a b => '^' :: (polish a ++ polish b)
  | Expr.or a b => 'v' :: (polish a ++ polish b)
  | Expr.imp a b => '→' :: (polish a ++ polish b)

/-- The operators left pending on infixToPrefix's operator stack (head =
top) after consuming `strNS e` unparenthesized: the operators along `e`'s
right spine, innermost on top, cut off at any parenthesized child. -/
def spineOps : Expr → List Char
  | Expr.atom _ => []
  | Expr.contr => []
  | Expr.not a => (if parenAt a 60 then [] else spineOps a) ++ ['~']
  | Expr.and _ b => (if parenAt b 50 then [] else spineOps b) ++ ['^']
  | Expr.or _ b => (if parenAt b 20 then [] else spineOps b) ++ ['v']
  | Expr.imp _ b => (if parenAt b 5 then [] else spineOps b) ++ ['→']

/-- The operands left on infixToPrefix's operand stack (head = top) after
consuming `strNS e` unparenthesized: the Polish encodings of the already
completed sub-terms hanging off the right spine. -/
def spineOpnds : Expr → List (List Char)
  | Expr.atom n => [n.data]
  | Expr.contr => [['⊥']]
  | Expr.not a => if parenAt a 60 then [polish a] else spineOpnds a
  | Expr.and a b => (if parenAt b 50 then [polish b] else spineOpnds b) ++ [polish a]
  | Expr.or a b => (if parenAt b 20 then [polish b] else spineOpnds b) ++ [polish a]
  | Expr.imp a b => (if parenAt b 5 then [polish b] else spineOpnds b) ++ [polish a]

/-- Characters usable as single-character atom names in round-trip
statements: anything except the four connective symbols, parentheses,
space (removed by `parseExpr`) and `'-'` (rewritten by the `->`/`-->`
replacements). -/
def goodChar (c : Char) : Bool :=
  !(c == '~') && !(c == '^') && !(c == 'v') && !(c == '→') &&
  !(c == '(') && !(c == ')') && !(c == ' ') && !(c == '-')

/-- Expressions built purely from single-character atoms (of `goodChar`
characters) and the grammar's four connectives. -/
def pureGrammar : Expr → Bool
  | Expr.atom n =>
    match n.data with
    | [c] => goodChar c
    | _ => false
  | Expr.contr => false
  | Expr.not a => pureGrammar a
  | Expr.and a b => pureGrammar a && pureGrammar b
  | Expr.or a b => pureGrammar a && pureGrammar b
  | Expr.imp a b => pureGrammar a && pureGrammar b

/-- Whether an expression is not headed by a conjunction. -/
def notAndHead : Expr → Bool
  | Expr.and _ _ => false
  | _ => true

/-- Whether an expression is not headed by a disjunction. -/
def notOrHead : Expr → Bool
  | Expr.or _ _ => false
  | _ => true

/-- Whether an expression is not headed by an implication. -/
def notImpHead : Expr → Bool
  | Expr.imp _ _ => false
  | _ => true

/-- No conjunction, disjunction or implication has a right operand headed by
the same connective (such operands render without parentheses and reparse
left-associated). -/
def leftAssocOK : Expr → Bool
  | Expr.atom _ => true
  | Expr.contr => true
  | Expr.not a => leftAssocOK a
  | Expr.and a b => leftAssocOK a && leftAssocOK b && notAndHead b
  | Expr.or a b => leftAssocOK a && leftAssocOK b && notOrHead b
  | Expr.imp a b => leftAssocOK a && leftAssocOK b && notImpHead b

/-- Whether the top node is a connective. -/
def isCompound : Expr → Bool
  | Expr.atom _ => false
  | Expr.contr => false
  | _ => true

/-- The parse priority of the binary operator at the root, or 5 when
consuming the rendered expression performs no priority comparison against
the surrounding operator stack (atoms, `⊥` and negations). -/
def pLow : Expr → Nat
  | Expr.and _ _ => 3
  | Expr.or _ _ => 2
  | Expr.imp _ _ => 1
  | _ => 5

/-- A lower bound for the parse priorities of the operators in
`spineOps e`. -/
def binLB : Expr → Nat
  | Expr.atom _ => 5
  | Expr.contr => 5
  | Expr.not _ => 4
  | Expr.and _ _ => 3
  | Expr.or _ _ => 2
  | Expr.imp _ _ => 1

/-- The constraint on the pre-existing operator stack under which consuming
a rendered expression never reduces into it: the top (if any) is an open
parenthesis or a strictly lower-priority operator. -/
def headOK (ops : List Char) (m : Nat) : Prop :=
  match ops with
  | [] => True
  | c :: _ => c = '(' ∨ getPriority c < m

/-! ### The proof model -/

/-- The `discharge` slot of a `Reference`: `None`, the vacuous marker `"v"`,
or an assumption index. -/
inductive Discharge where
  | none : Discharge
  | vac : Discharge
  | index (i : Int) : Discharge
deriving DecidableEq, Repr

/-- A citation `Reference(line_no, discharge)` to an earlier proof line. -/
structure Reference where
  line_no : Int
  discharge : Discharge
deriving DecidableEq, Repr

/-- The `Rule` enum, in declaration (= `value`) order. -/
inductive Rule where
  | ASSUMPTION : Rule
  | AND_ELIM : Rule
  | AND_INTRO : Rule
  | DNE : Rule
  | NOT_ELIM : Rule
  | NOT_INTRO : Rule
  | OR_INTRO : Rule
  | OR_ELIM : Rule
  | IMPLIES_INTRO : Rule
  | IMPLIES_ELIM : Rule
  | RAA : Rule
deriving DecidableEq, Repr

/-- A `ProofLine(assumptions, content, references, rule_used)`. -/
structure ProofLine where
  assumptions : Finset Int
  content : Expr
  references : List Reference
  rule_used : Rule
deriving DecidableEq

/-- A `Goal(assumptions, assumption_map, content)`. -/
structure Goal where
  assumptions : Finset Int
  assumption_map : List Expr
  content : Expr
deriving DecidableEq

/-- The `Proof` object's mutable state: the accepted lines, the assumption
map, and the goal. -/
structure Proof where
  lines : List ProofLine
  assumption_map : List Expr
  goal : Goal
deriving DecidableEq

/-- `Proof.__init__(premises, goal)`: one `ASSUMPTION` line per premise, the
assumption map is a copy of the premises, and the goal's assumption set is
`set(range(len(lines)))`. -/
def mkProof (premises : List Expr) (goal : Expr) : Proof :=
  { lines := premises.enum.map fun pr => ⟨{(pr.1 : Int)}, pr.2, [], Rule.ASSUMPTION⟩
    assumption_map := premises
    goal := ⟨(Finset.range premises.length).image (fun n : Nat => (n : Int)), premises, goal⟩ }

/-- `Proof.can_add_assumption`: the candidate's assumption set has exactly one
element, that element is `len(assumption_map)` (hence the set is that
singleton), and there are no references. -/
def can_add_assumption (p : Proof) (line : ProofLine) : PyResult Bool :=
  if line.assumptions = {(p.assumption_map.length : Int)} then
    .ok (decide (line.references.length = 0))
  else .ok false

/-- `Proof.can_add_and_elim`. -/
def can_add_and_elim (p : Proof) (line : ProofLine) : PyResult Bool :=
  match line.references with
  | [reference] =>
    if reference.discharge = Discharge.none then
      match pyGet p.lines reference.line_no with
      | Option.none => .crash
      | some referenced =>
        if line.assumptions = referenced.assumptions then
          match referenced.content with
          | Expr.and l r => .ok (pyEq line.content l || pyEq line.content r)
          | _ => .ok false
        else .ok false
    else .ok false
  | _ => .ok false

/-- `Proof.can_add_and_intro`. -/
def can_add_and_intro (p : Proof) (line : ProofLine) : PyResult Bool :=
  match line.content with
  | Expr.and cl cr =>
    match line.references with
    | [reference1, reference2] =>
      if reference1.discharge = Discharge.none ∧ reference2.discharge = Discharge.none then
        match pyGet p.lines reference1.line_no with
        | Option.none => .crash
        | some referenced1 =>
          match pyGet p.lines reference2.line_no with
          | Option.none => .crash
          | some referenced2 =>
            if line.assumptions = referenced1.assumptions ∪ referenced2.assumptions then
              .ok (pyEq cl referenced1.content && pyEq cr referenced2.content)
            else .ok false
      else .ok false
    | _ => .ok false
  | _ => .ok false

/-- `Proof.can_add_dne`. -/
def can_add_dne (p : Proof) (line : ProofLine) : PyResult Bool :=
  match line.references with
  | [reference] =>
    if reference.discharge = Discharge.none then
      match pyGet p.lines reference.line_no with
      | Option.none => .crash
      | some referenced =>
        if line.assumptions = referenced.assumptions then
          match referenced.content with
          | Expr.not (Expr.not inner2) => .ok (pyEq inner2 line.content)
          | _ => .ok false
        else .ok false
    else .ok false
  | _ => .ok false

/-- `Proof.can_add_not_elim`. -/
def can_add_not_elim (p : Proof) (line : ProofLine) : PyResult Bool :=
  match line.references with
  | [r1, r2] =>
    if r1.discharge = Discharge.none ∧ r2.discharge = Discharge.none then
      match pyGet p.lines r1.line_no with
      | Option.none => .crash
      | some reference1 =>
        match pyGet p.lines r2.line_no with
        | Option.none => .crash
        | some reference2 =>
          if line.assumptions = reference1.assumptions ∪ reference2.assumptions then
            let b1 := match reference1.content with
                      | Expr.not x => pyEq x reference2.content
                      | _ => false
            let b2 := match reference2.content with
                      | Expr.not y => pyEq reference1.content y
                      | _ => false
            .ok ((b1 || b2) && pyEq line.content Expr.contr)
          else .ok false
    else .ok false
  | _ => .ok false

/-- `Proof.can_add_not_intro`.  A `None` discharge is rejected before the
referenced line is looked up; `referenced.content != Contr()` is the
negation of the dispatched equality `pyEq`; for an index discharge the
final content check indexes the assumption map. -/
def can_add_not_intro (p : Proof) (line : ProofLine) : PyResult Bool :=
  match line.references with
  | [line_reference] =>
    match pyGet p.lines line_reference.line_no, line_reference.discharge with
    | _, Discharge.none => .ok false
    | Option.none, _ => .crash
    | some referenced, Discharge.vac =>
      if pyEq referenced.content Expr.contr then
        if line.assumptions = referenced.assumptions then
          match line.content with
          | Expr.not _ => .ok true
          | _ => .ok false
        else .ok false
      else .ok false
    | some referenced, Discharge.index i =>
      if pyEq referenced.content Expr.contr then
        if line.assumptions ∪ {i} = referenced.assumptions ∧
            line.assumptions.card < referenced.assumptions.card then
          match line.content with
          | Expr.not inner =>
            match pyGet p.assumption_map i with
            | Option.none => .crash
            | some a => .ok (pyEq inner a)
          | _ => .ok false
        else .ok false
      else .ok false
  | _ => .ok false

/-- parser.py line 333 compares the candidate's assumption set (a Python
`set` of ints) with the referenced `ProofLine` object itself; since neither
class relates the two types, Python falls back to identity and the
comparison is always `False`. -/
def setEqProofLine (_s : Finset Int) (_l : ProofLine) : Bool := false

/-- `Proof.can_add_or_intro`.  The assumption check compares
`line.assumptions` with `self.lines[reference.line_no]`, the line *object*
(see `setEqProofLine`); the remaining content check re-indexes
`self.lines`. -/
def can_add_or_intro (p : Proof) (line : ProofLine) : PyResult Bool :=
  match line.content with
  | Expr.or cl cr =>
    match line.references with
    | [reference] =>
      if reference.discharge = Discharge.none then
        match pyGet p.lines reference.line_no with
        | Option.none => .crash
        | some refLine =>
          if setEqProofLine line.assumptions refLine then
            match pyGet p.lines reference.line_no with
            | Option.none => .crash
            | some refLine2 => .ok (pyEq refLine2.content cl || pyEq refLine2.content cr)
          else .ok false
      else .ok false
    | _ => .ok false
  | _ => .ok false

/-- `Proof.can_add_or_elim`.  The second disjunct of the branch-content
check compares `discharge_cont2` on both sides (the source's line 359). -/
def can_add_or_elim (p : Proof) (line : ProofLine) : PyResult Bool :=
  match line.references with
  | [ref1, ref2, ref3] =>
    if ref1.discharge ≠ Discharge.none ∨
        ref2.discharge = Discharge.none ∨ ref2.discharge = Discharge.vac ∨
        ref3.discharge = Discharge.none ∨ ref3.discharge = Discharge.vac then .ok false
    else
      match pyGet p.lines ref1.line_no with
      | Option.none => .crash
      | some referenced1 =>
        match pyGet p.lines ref2.line_no with
        | Option.none => .crash
        | some referenced2 =>
          match pyGet p.lines ref3.line_no with
          | Option.none => .crash
          | some referenced3 =>
            match ref2.discharge, ref3.discharge with
            | Discharge.index i2, Discharge.index i3 =>
              match pyGet p.assumption_map i2 with
              | Option.none => .crash
              | some discharge_cont2 =>
                match pyGet p.assumption_map i3 with
                | Option.none => .crash
                | some discharge_cont3 =>
                  match referenced1.content with
                  | Expr.or dl dr =>
                    if !(pyEq discharge_cont2 dl && pyEq discharge_cont3 dr) &&
                        !(pyEq discharge_cont2 dr && pyEq discharge_cont2 dl) then .ok false
                    else if !(pyEq referenced2.content line.content &&
                        pyEq referenced3.content line.content) then .ok false
                    else if line.assumptions ≠
                        (referenced1.assumptions ∪ referenced2.assumptions ∪
                          referenced3.assumptions) \ {i2, i3} then .ok false
                    else .ok true
                  | _ => .ok false
            | _, _ => .ok false
  | _ => .ok false

/-- `Proof.can_add_implies_intro`.  A `None` discharge is rejected before the
referenced line is looked up; for an index discharge the left-hand-side
check indexes the assumption map only after the right-hand-side check
succeeds (Python's short-circuiting `and`). -/
def can_add_implies_intro (p : Proof) (line : ProofLine) : PyResult Bool :=
  match line.references with
  | [reference] =>
    match pyGet p.lines reference.line_no, reference.discharge with
    | _, Discharge.none => .ok false
    | Option.none, _ => .crash
    | some referenced, Discharge.vac =>
      match line.content with
      | Expr.imp _ rr =>
        if line.assumptions = referenced.assumptions then .ok (pyEq rr referenced.content)
        else .ok false
      | _ => .ok false
    | some referenced, Discharge.index i =>
      match line.content with
      | Expr.imp ll rr =>
        if line.assumptions = referenced.assumptions.erase i then
          if pyEq rr referenced.content then
            match pyGet p.assumption_map i with
            | Option.none => .crash
            | some a => .ok (pyEq ll a)
          else .ok false
        else .ok false
      | _ => .ok false
  | _ => .ok false

/-- `Proof.can_add_implies_elim`.  If the first referenced content is an
implication it plays the implication role (even if both are); otherwise the
second must be. -/
def can_add_implies_elim (p : Proof) (line : ProofLine) : PyResult Bool :=
  match line.references with
  | [r1, r2] =>
    if r1.discharge = Discharge.none ∧ r2.discharge = Discharge.none then
      match pyGet p.lines r1.line_no with
      | Option.none => .crash
      | some referenced1 =>
        match pyGet p.lines r2.line_no with
        | Option.none => .crash
        | some referenced2 =>
          if line.assumptions = referenced1.assumptions ∪ referenced2.assumptions then
            match referenced1.content with
            | Expr.imp il ir =>
              if pyEq il referenced2.content then .ok (pyEq ir line.content) else .ok false
            | c1 =>
              match referenced2.content with
              | Expr.imp il ir =>
                if pyEq il c1 then .ok (pyEq ir line.content) else .ok false
              | _ => .ok false
          else .ok false
    else .ok false
  | _ => .ok false

/-- `Proof.can_add_raa`.  A `None` discharge on the second reference reaches
the set subtraction (where `- {None}` removes nothing from a set of ints)
and then crashes on `assumption_map[None]` (a `TypeError`). -/
def can_add_raa (p : Proof) (line : ProofLine) : PyResult Bool :=
  match line.references with
  | [reference1, reference2] =>
    if reference1.discharge ≠ Discharge.none then .ok false
    else
      match pyGet p.lines reference1.line_no with
      | Option.none => .crash
      | some referenced1 =>
        match pyGet p.lines reference2.line_no with
        | Option.none => .crash
        | some referenced2 =>
          match line.content with
          | Expr.not inner =>
            match reference2.discharge with
            | Discharge.vac =>
              .ok (decide (line.assumptions = referenced1.assumptions ∪ referenced2.assumptions))
            | Discharge.none =>
              if line.assumptions = referenced1.assumptions ∪ referenced2.assumptions then .crash
              else .ok false
            | Discharge.index i =>
              if line.assumptions = (referenced1.assumptions ∪ referenced2.assumptions).erase i then
                match pyGet p.assumption_map i with
                | Option.none => .crash
                | some a => .ok (pyEq inner a)
              else .ok false
          | _ => .ok false
  | _ => .ok false

/-- `Proof.can_add_line`: dispatch through `can_add_funcs` indexed by the
rule's enum value. -/
def can_add_line (p : Proof) (line : ProofLine) : PyResult Bool :=
  match line.rule_used with
  | Rule.ASSUMPTION => can_add_assumption p line
  | Rule.AND_ELIM => can_add_and_elim p line
  | Rule.AND_INTRO => can_add_and_intro p line
  | Rule.DNE => can_add_dne p line
  | Rule.NOT_ELIM => can_add_not_elim p line
  | Rule.NOT_INTRO => can_add_not_intro p line
  | Rule.OR_INTRO => can_add_or_intro p line
  | Rule.OR_ELIM => can_add_or_elim p line
  | Rule.IMPLIES_INTRO => can_add_implies_intro p line
  | Rule.IMPLIES_ELIM => can_add_implies_elim p line
  | Rule.RAA => can_add_raa p line

/-- `Proof.try_add_line`: on acceptance the line is appended and, for an
`ASSUMPTION` line only, its content is appended to the assumption map; a
rejection leaves the proof untouched; a crash in the check propagates
before any mutation. -/
def try_add_line (p : Proof) (line : ProofLine) : PyResult (Bool × Proof) :=
  match can_add_line p line with
  | .crash => .crash
  | .ok false => .ok (false, p)
  | .ok true =>
    .ok (true,
      { p with
        lines := p.lines ++ [line]
        assumption_map :=
          if line.rule_used = Rule.ASSUMPTION then p.assumption_map ++ [line.content]
          else p.assumption_map })

/-- The proof states reachable from `Proof.__init__` by any sequence of
`try_add_line` calls (a call that raises leaves the state unchanged). -/
inductive Reachable : Proof → Prop where
  | init (premises : List Expr) (goal : Expr) : Reachable (mkProof premises goal)
  | step (p : Proof) (line : ProofLine) (b : Bool) (p' : Proof) :
      Reachable p → try_add_line p line = .ok (b, p') → Reachable p'

/-! ### Concrete instances used by the claim theorems -/

def pAtom : Expr := Expr.atom "p"

def qAtom : Expr := Expr.atom "q"

def rAtom : Expr := Expr.atom "r"

def sAtom : Expr := Expr.atom "s"

/-- A proof of `p ⊢ p ∨ q` about to apply ∨-Intro. -/
def orIntroProof : Proof := mkProof [pAtom] (Expr.or pAtom qAtom)

/-- An ∨-Intro candidate meeting the rule's documented contract. -/
def orIntroCand : ProofLine := ⟨{0}, Expr.or pAtom qAtom, [⟨0, Discharge.none⟩], Rule.OR_INTRO⟩

/-- Premises `p ∨ q`, `q`, `p`, `r` (assumption indices 0–3). -/
def orElimProof : Proof := mkProof [Expr.or pAtom qAtom, qAtom, pAtom, rAtom] rAtom

/-- ∨-Elim candidate discharging index 2 (`p`, the left branch) on the second
reference and index 1 (`q`, the right branch) on the third. -/
def orElimStraight : ProofLine :=
  ⟨{0, 3}, rAtom, [⟨0, Discharge.none⟩, ⟨3, Discharge.index 2⟩, ⟨3, Discharge.index 1⟩],
    Rule.OR_ELIM⟩

/-- The same ∨-Elim candidate with the two discharges swapped: index 1 (`q`,
the right branch) on the second reference, index 2 (`p`, the left branch) on
the third. -/
def orElimSwapped : ProofLine :=
  ⟨{0, 3}, rAtom, [⟨0, Discharge.none⟩, ⟨3, Discharge.index 1⟩, ⟨3, Discharge.index 2⟩],
    Rule.OR_ELIM⟩

/-- A proof with premises `p`, `q`. -/
def pqProof : Proof := mkProof [pAtom, qAtom] (Expr.imp qAtom pAtom)

/-- Line 0 of `pqProof` (and of `pProof`): the premise `p`. -/
def premiseLineP : ProofLine := ⟨{0}, pAtom, [], Rule.ASSUMPTION⟩

/-- →-Intro candidate citing line 0 (assumptions `{0}`) while discharging
index 1, which is not in the cited line's assumption set. -/
def impCandOutside : ProofLine :=
  ⟨{0}, Expr.imp qAtom pAtom, [⟨0, Discharge.index 1⟩], Rule.IMPLIES_INTRO⟩

/-- RAA candidate citing line 0 twice while discharging index 1, which is not
in the cited line's assumption set. -/
def raaCandOutside : ProofLine :=
  ⟨{0}, Expr.not qAtom, [⟨0, Discharge.none⟩, ⟨0, Discharge.index 1⟩], Rule.RAA⟩

/-- ¬-Intro candidate discharging index 1, not in the cited line's
assumption set. -/
def notIntroCandOutside : ProofLine :=
  ⟨{0}, Expr.not qAtom, [⟨0, Discharge.index 1⟩], Rule.NOT_INTRO⟩

/-- A proof whose single premise is `⊥`. -/
def contrProof : Proof := mkProof [Expr.contr] pAtom

/-- Line 0 of `contrProof`: the premise `⊥`. -/
def contrLine : ProofLine := ⟨{0}, Expr.contr, [], Rule.ASSUMPTION⟩

/-- An accepted non-vacuous ¬-Intro over `contrProof`. -/
def notIntroAccepted : ProofLine :=
  ⟨∅, Expr.not Expr.contr, [⟨0, Discharge.index 0⟩], Rule.NOT_INTRO⟩

/-- A proof with the single premise `p`. -/
def pProof : Proof := mkProof [pAtom] pAtom

/-- An accepted non-vacuous →-Intro over `pProof` discharging index 0. -/
def impAccepted : ProofLine :=
  ⟨∅, Expr.imp pAtom pAtom, [⟨0, Discharge.index 0⟩], Rule.IMPLIES_INTRO⟩

/-- ∧-Elim candidate over `pProof` citing line 1 — its own index, one past
the last accepted line. -/
def fwdRefCand : ProofLine := ⟨{0}, pAtom, [⟨1, Discharge.none⟩], Rule.AND_ELIM⟩

/-- An acceptable `ASSUMPTION` candidate over `pProof`. -/
def assumptionCandQ : ProofLine := ⟨{1}, qAtom, [], Rule.ASSUMPTION⟩

/-- The proof obtained from `pProof` by accepting `assumptionCandQ`. -/
def pProofExt : Proof :=
  ⟨pProof.lines ++ [assumptionCandQ], pProof.assumption_map ++ [qAtom], pProof.goal⟩

/-- A proof with the single premise `p ∧ q`. -/
def andProof : Proof := mkProof [Expr.and pAtom qAtom] pAtom

/-- ∧-Elim candidate over `andProof` citing line `-1`. -/
def negRefCand : ProofLine := ⟨{0}, pAtom, [⟨-1, Discharge.none⟩], Rule.AND_ELIM⟩

/-- The specification's parsing scenario: `~(p v q) ^ (r → s)`. -/
def sceneFive : Expr := Expr.and (Expr.not (Expr.or pAtom qAtom)) (Expr.imp rAtom sAtom)

/-- A right-nested disjunction `p v (q v r)`. -/
def rightNested : Expr := Expr.or pAtom (Expr.or qAtom rAtom)

/-- The left-nested reading `(p v q) v r` of the same rendered string. -/
def leftNested : Expr := Expr.or (Expr.or pAtom qAtom) rAtom

/-! ### Preprocessing lemmas: the replace chain of parseExpr -/

theorem pyReplaceF_of_head_not_mem (p : Char) (ps repl : List Char) :
    ∀ (fuel : Nat) (s : List Char), p ∉ s → pyReplaceF fuel (p :: ps) repl s = s := by
  intro fuel
  induction fuel with
  | zero => intro s _; rfl
  | succ n ih =>
    intro s hs
    cases s with
    | nil => rfl
    | cons c cs =>
      have hpc : (p == c) = false := by
        simp only [beq_eq_false_iff_ne, ne_eq]
        intro h
        exact hs (by simp [h])
      simp only [pyReplaceF, List.isPrefixOf, hpc, Bool.false_and, Bool.and_false,
        Bool.false_eq_true, if_false]
      exact congrArg (c :: ·) (ih cs (fun h => hs (List.mem_cons_of_mem _ h)))

theorem pyReplace_of_head_not_mem (p : Char) (ps repl : List Char) (s : List Char)
    (hs : p ∉ s) : pyReplace (p :: ps) repl s = s :=
  pyReplaceF_of_head_not_mem p ps repl _ s hs

theorem pyReplaceF_single_filter (a : Char) :
    ∀ (fuel : Nat) (s : List Char), s.length < fuel →
      pyReplaceF fuel [a] [] s = s.filter (fun c => !(c == a)) := by
  intro fuel
  induction fuel with
  | zero => intro s h; omega
  | succ n ih =>
    intro s hlen
    cases s with
    | nil => rfl
    | cons c cs =>
      have hlen' : cs.length < n := by simpa using Nat.lt_of_succ_lt_succ hlen
      by_cases h : a = c
      · subst h
        simp [pyReplaceF, List.isPrefixOf, List.filter, ih cs hlen']
      · have hac : (a == c) = false := by
          simp only [beq_eq_false_iff_ne, ne_eq]; exact h
        have hca : (c == a) = false := by
          simp only [beq_eq_false_iff_ne, ne_eq]; exact fun hh => h hh.symm
        simp [pyReplaceF, List.isPrefixOf, hac, hca, List.filter, ih cs hlen']

theorem pyReplace_single_filter (a : Char) (s : List Char) :
    pyReplace [a] [] s = s.filter (fun c => !(c == a)) :=
  pyReplaceF_single_filter a _ s (Nat.lt_succ_self _)

theorem filter_wrapIf (b : Bool) (s : List Char) :
    (wrapIf b s).filter (fun c => !(c == ' ')) =
      wrapIf b (s.filter (fun c => !(c == ' '))) := by
  cases b <;> simp [wrapIf, List.filter_append, List.filter]

theorem strExpr_filter (e : Expr) (hp : pureGrammar e = true) :
    (strExpr e).filter (fun c => !(c == ' ')) = strNS e := by
  induction e with
  | atom n =>
    cases hd : n.data with
    | nil => simp [pureGrammar, hd] at hp
    | cons c tl =>
      cases tl with
      | cons _ _ => simp [pureGrammar, hd] at hp
      | nil =>
        have hg : goodChar c = true := by simpa [pureGrammar, hd] using hp
        have hcs : (c == ' ') = false := by
          simp only [goodChar, Bool.and_eq_true, Bool.not_eq_true'] at hg
          exact hg.1.2
        simp [strExpr, strNS, hd, List.filter, hcs]
  | contr => simp [pureGrammar] at hp
  | not a ih =>
    have hpa : pureGrammar a = true := by simpa [pureGrammar] using hp
    simp [strExpr, strNS, List.filter, filter_wrapIf, ih hpa]
  | and a b iha ihb =>
    have hpa : pureGrammar a = true := by
      have := hp; simp [pureGrammar, Bool.and_eq_true] at this; exact this.1
    have hpb : pureGrammar b = true := by
      have := hp; simp [pureGrammar, Bool.and_eq_true] at this; exact this.2
    simp [strExpr, strNS, List.filter_append, List.filter, filter_wrapIf, iha hpa, ihb hpb]
  | or a b iha ihb =>
    have hpa : pureGrammar a = true := by
      have := hp; simp [pureGrammar, Bool.and_eq_true] at this; exact this.1
    have hpb : pureGrammar b = true := by
      have := hp; simp [pureGrammar, Bool.and_eq_true] at this; exact this.2
    simp [strExpr, strNS, List.filter_append, List.filter, filter_wrapIf, iha hpa, ihb hpb]
  | imp a b iha ihb =>
    have hpa : pureGrammar a = true := by
      have := hp; simp [pureGrammar, Bool.and_eq_true] at this; exact this.1
    have hpb : pureGrammar b = true := by
      have := hp; simp [pureGrammar, Bool.and_eq_true] at this; exact this.2
    simp [strExpr, strNS, List.filter_append, List.filter, filter_wrapIf, iha hpa, ihb hpb]

theorem mem_wrapIf {x : Char} {b : Bool} {s : List Char} (h : x ∈ wrapIf b s) :
    x = '(' ∨ x = ')' ∨ x ∈ s := by
  cases b <;> simp [wrapIf] at h <;> tauto

theorem dash_not_mem (e : Expr) (hp : pureGrammar e = true) : '-' ∉ strExpr e := by
  induction e with
  | atom n =>
    cases hd : n.data with
    | nil => simp [pureGrammar, hd] at hp
    | cons c tl =>
      cases tl with
      | cons _ _ => simp [pureGrammar, hd] at hp
      | nil =>
        have hg : goodChar c = true := by simpa [pureGrammar, hd] using hp
        have hcd : (c == '-') = false := by
          simp only [goodChar, Bool.and_eq_true, Bool.not_eq_true'] at hg
          exact hg.2
        intro hmem
        simp only [strExpr, hd, List.mem_singleton] at hmem
        rw [← hmem] at hcd
        simp at hcd
  | contr => simp [pureGrammar] at hp
  | not a ih =>
    have hpa : pureGrammar a = true := by simpa [pureGrammar] using hp
    intro hmem
    simp only [strExpr, List.mem_cons] at hmem
    rcases hmem with h | h
    · exact absurd h (by decide)
    · rcases mem_wrapIf h with h' | h' | h'
      · exact absurd h' (by decide)
      · exact absurd h' (by decide)
      · exact ih hpa h'
  | and a b iha ihb =>
    have hpa : pureGrammar a = true := by
      have := hp; simp only [pureGrammar, Bool.and_eq_true] at this; exact this.1
    have hpb : pureGrammar b = true := by
      have := hp; simp only [pureGrammar, Bool.and_eq_true] at this; exact this.2
    intro hmem
    simp only [strExpr, List.mem_append, List.mem_cons] at hmem
    rcases hmem with h | h | h | h | h
    · rcases mem_wrapIf h with h' | h' | h'
      · exact absurd h' (by decide)
      · exact absurd h' (by decide)
      · exact iha hpa h'
    · exact absurd h (by decide)
    · exact absurd h (by decide)
    · exact absurd h (by decide)
    · rcases mem_wrapIf h with h' | h' | h'
      · exact absurd h' (by decide)
      · exact absurd h' (by decide)
      · exact ihb hpb h'
  | or a b iha ihb =>
    have hpa : pureGrammar a = true := by
      have := hp; simp only [pureGrammar, Bool.and_eq_true] at this; exact this.1
    have hpb : pureGrammar b = true := by
      have := hp; simp only [pureGrammar, Bool.and_eq_true] at this; exact this.2
    intro hmem
    simp only [strExpr, List.mem_append, List.mem_cons] at hmem
    rcases hmem with h | h | h | h | h
    · rcases mem_wrapIf h with h' | h' | h'
      · exact absurd h' (by decide)
      · exact absurd h' (by decide)
      · exact iha hpa h'
    · exact absurd h (by decide)
    · exact absurd h (by decide)
    · exact absurd h (by decide)
    · rcases mem_wrapIf h with h' | h' | h'
      · exact absurd h' (by decide)
      · exact absurd h' (by decide)
      · exact ihb hpb h'
  | imp a b iha ihb =>
    have hpa : pureGrammar a = true := by
      have := hp; simp only [pureGrammar, Bool.and_eq_true] at this; exact this.1
    have hpb : pureGrammar b = true := by
      have := hp; simp only [pureGrammar, Bool.and_eq_true] at this; exact this.2
    intro hmem
    simp only [strExpr, List.mem_append, List.mem_cons] at hmem
    rcases hmem with h | h | h | h | h
    · rcases mem_wrapIf h with h' | h' | h'
      · exact absurd h' (by decide)
      · exact absurd h' (by decide)
      · exact iha hpa h'
    · exact absurd h (by decide)
    · exact absurd h (by decide)
    · exact absurd h (by decide)
    · rcases mem_wrapIf h with h' | h' | h'
      · exact absurd h' (by decide)
      · exact absurd h' (by decide)
      · exact ihb hpb h'

/-- The full preprocessing chain of parseExpr maps a rendered expression to
its space-free rendering. -/
theorem preprocess_strExpr (e : Expr) (hp : pureGrammar e = true) :
    pyReplace [' '] []
      (pyReplace ['-', '>'] ['→'] (pyReplace ['-', '-', '>'] ['→'] (strExpr e))) = strNS e := by
  rw [pyReplace_of_head_not_mem '-' ['-', '>'] ['→'] _ (dash_not_mem e hp),
    pyReplace_of_head_not_mem '-' ['>'] ['→'] _ (dash_not_mem e hp),
    pyReplace_single_filter]
  exact strExpr_filter e hp

/-! ### Shunting lemmas: infixToPrefix on rendered expressions -/

theorem extractGroup_un (x : List Char) (o : List (List Char)) :
    extractGroup '~' (x :: o) = some ('~' :: x, o) := rfl

theorem extractGroup_bin (c : Char) (h : isUnaryOperator c = false)
    (x y : List Char) (o : List (List Char)) :
    extractGroup c (x :: y :: o) = some (c :: (y ++ x), o) := by
  simp [extractGroup, h]

theorem drainOps_append (xs ys : List Char) (o : List (List Char)) :
    drainOps (xs ++ ys) o =
      match drainOps xs o with
      | .crash => .crash
      | .ok o' => drainOps ys o' := by
  induction xs generalizing o with
  | nil => simp [drainOps]
  | cons x xs ih =>
    simp only [List.cons_append, drainOps]
    cases hx : extractGroup x o with
    | none => rfl
    | some pr =>
      obtain ⟨tmp, o'⟩ := pr
      exact ih (tmp :: o')

theorem drainOps_spine (e : Expr) :
    ∀ t : List (List Char), drainOps (spineOps e) (spineOpnds e ++ t) = .ok (polish e :: t) := by
  induction e with
  | atom n => intro t; simp [spineOps, spineOpnds, polish, drainOps]
  | contr => intro t; simp [spineOps, spineOpnds, polish, drainOps]
  | not a ih =>
    intro t
    by_cases hpar : parenAt a 60 = true
    · simp [spineOps, spineOpnds, hpar, drainOps, extractGroup_un, polish]
    · simp only [spineOps, spineOpnds, hpar, Bool.false_eq_true, if_false]
      rw [drainOps_append, ih t]
      simp [drainOps, extractGroup_un, polish]
  | and a b iha ihb =>
    intro t
    by_cases hpar : parenAt b 50 = true
    · simp only [spineOps, spineOpnds, hpar, if_true, List.cons_append, List.nil_append,
        List.append_assoc, List.singleton_append]
      simp [drainOps, extractGroup_bin '^' (by decide), polish]
    · simp only [spineOps, spineOpnds, hpar, Bool.false_eq_true, if_false, List.append_assoc,
        List.singleton_append]
      rw [drainOps_append, ihb (polish a :: t)]
      simp [drainOps, extractGroup_bin '^' (by decide), polish]
  | or a b iha ihb =>
    intro t
    by_cases hpar : parenAt b 20 = true
    · simp only [spineOps, spineOpnds, hpar, if_true, List.cons_append, List.nil_append,
        List.append_assoc, List.singleton_append]
      simp [drainOps, extractGroup_bin 'v' (by decide), polish]
    · simp only [spineOps, spineOpnds, hpar, Bool.false_eq_true, if_false, List.append_assoc,
        List.singleton_append]
      rw [drainOps_append, ihb (polish a :: t)]
      simp [drainOps, extractGroup_bin 'v' (by decide), polish]
  | imp a b iha ihb =>
    intro t
    by_cases hpar : parenAt b 5 = true
    · simp only [spineOps, spineOpnds, hpar, if_true, List.cons_append, List.nil_append,
        List.append_assoc, List.singleton_append]
      simp [drainOps, extractGroup_bin '→' (by decide), polish]
    · simp only [spineOps, spineOpnds, hpar, Bool.false_eq_true, if_false, List.append_assoc,
        List.singleton_append]
      rw [drainOps_append, ihb (polish a :: t)]
      simp [drainOps, extractGroup_bin '→' (by decide), polish]

theorem closeParen_of_drain :
    ∀ (xs : List Char) (o o' : List (List Char)) (ops : List Char),
      '(' ∉ xs → drainOps xs o = .ok o' →
      closeParen (xs ++ '(' :: ops) o = .ok (ops, o') := by
  intro xs
  induction xs with
  | nil =>
    intro o o' ops _ hd
    simp only [drainOps, PyResult.ok.injEq] at hd
    subst hd
    simp [closeParen]
  | cons x xs ih =>
    intro o o' ops hmem hd
    have hx : ¬ (x = '(') := fun h => hmem (by simp [h])
    simp only [List.cons_append, closeParen, if_neg hx]
    simp only [drainOps] at hd
    cases hx2 : extractGroup x o with
    | none => rw [hx2] at hd; exact absurd hd (by simp)
    | some pr =>
      obtain ⟨tmp, o2⟩ := pr
      rw [hx2] at hd
      exact ih (tmp :: o2) o' ops (fun h => hmem (List.mem_cons_of_mem _ h)) hd

theorem popReduce_stop (cur : Char) (h1 : 1 ≤ getPriority cur) :
    ∀ (xs : List Char) (o o' : List (List Char)) (ops : List Char),
      (∀ c ∈ xs, getPriority cur ≤ getPriority c) →
      headOK ops (getPriority cur) →
      drainOps xs o = .ok o' →
      popReduce cur (xs ++ ops) o = .ok (ops, o') := by
  intro xs
  induction xs with
  | nil =>
    intro o o' ops _ hh hd
    simp only [drainOps, PyResult.ok.injEq] at hd
    subst hd
    cases ops with
    | nil => rfl
    | cons c cs =>
      simp only [List.nil_append, popReduce]
      have hc : ¬ (getPriority cur ≤ getPriority c) := by
        rcases hh with h | h
        · rw [h, show getPriority '(' = 0 by decide]
          omega
        · omega
      rw [if_neg hc]
  | cons x xs ih =>
    intro o o' ops hel hh hd
    have hx : getPriority cur ≤ getPriority x := hel x (by simp)
    simp only [List.cons_append, popReduce, if_pos hx]
    simp only [drainOps] at hd
    cases hx2 : extractGroup x o with
    | none => rw [hx2] at hd; exact absurd hd (by simp)
    | some pr =>
      obtain ⟨tmp, o2⟩ := pr
      rw [hx2] at hd
      exact ih (tmp :: o2) o' ops (fun c hc => hel c (by simp [hc])) hh hd

theorem lb_not_paren60 (a : Expr) (h : parenAt a 60 = false) : 4 ≤ binLB a := by
  cases a <;> simp_all [parenAt, isOpExpr, rprio, binLB]

theorem pLow_not_paren60 (a : Expr) (h : parenAt a 60 = false) : pLow a = 5 := by
  cases a <;> simp_all [parenAt, isOpExpr, rprio, pLow]

theorem lb_not_paren50 (a : Expr) (h : parenAt a 50 = false) : 3 ≤ binLB a ∧ 3 ≤ pLow a := by
  cases a <;> simp_all [parenAt, isOpExpr, rprio, binLB, pLow]

theorem lb_not_paren20 (a : Expr) (h : parenAt a 20 = false) : 2 ≤ binLB a ∧ 2 ≤ pLow a := by
  cases a <;> simp_all [parenAt, isOpExpr, rprio, binLB, pLow]

theorem lb_not_paren5 (a : Expr) (h : parenAt a 5 = false) : 1 ≤ binLB a ∧ 1 ≤ pLow a := by
  cases a <;> simp_all [parenAt, isOpExpr, rprio, binLB, pLow]

theorem right_not_paren50 (b : Expr) (h : parenAt b 50 = false)
    (hb : notAndHead b = true) : 3 < pLow b := by
  cases b with
  | atom n => simp [pLow]
  | contr => simp [pLow]
  | not x => simp [pLow]
  | and x y => simp [notAndHead] at hb
  | or x y => exfalso; simp [parenAt, isOpExpr, rprio] at h
  | imp x y => exfalso; simp [parenAt, isOpExpr, rprio] at h

theorem right_not_paren20 (b : Expr) (h : parenAt b 20 = false)
    (hb : notOrHead b = true) : 2 < pLow b := by
  cases b with
  | atom n => simp [pLow]
  | contr => simp [pLow]
  | not x => simp [pLow]
  | and x y => simp [pLow]
  | or x y => simp [notOrHead] at hb
  | imp x y => exfalso; simp [parenAt, isOpExpr, rprio] at h

theorem right_not_paren5 (b : Expr) (h : parenAt b 5 = false)
    (hb : notImpHead b = true) : 1 < pLow b := by
  cases b with
  | atom n => simp [pLow]
  | contr => simp [pLow]
  | not x => simp [pLow]
  | and x y => simp [pLow]
  | or x y => simp [pLow]
  | imp x y => simp [notImpHead] at hb

theorem binLB_pos (e : Expr) : 1 ≤ binLB e := by
  cases e <;> simp [binLB]

theorem spineOps_lb (e : Expr) : ∀ c ∈ spineOps e, binLB e ≤ getPriority c := by
  induction e with
  | atom n => intro c hc; simp [spineOps] at hc
  | contr => intro c hc; simp [spineOps] at hc
  | not a ih =>
    intro c hc
    simp only [spineOps, List.mem_append, List.mem_singleton] at hc
    rcases hc with hc | hc
    · by_cases hpar : parenAt a 60 = true
      · rw [hpar] at hc; simp at hc
      · rw [if_neg (by simp [hpar])] at hc
        have h1 := ih c hc
        have h2 := lb_not_paren60 a (by simpa using hpar)
        simp only [binLB]
        omega
    · subst hc; simp [getPriority, binLB]
  | and a b iha ihb =>
    intro c hc
    simp only [spineOps, List.mem_append, List.mem_singleton] at hc
    rcases hc with hc | hc
    · by_cases hpar : parenAt b 50 = true
      · rw [hpar] at hc; simp at hc
      · rw [if_neg (by simp [hpar])] at hc
        have h1 := ihb c hc
        have h2 := (lb_not_paren50 b (by simpa using hpar)).1
        simp only [binLB]
        omega
    · subst hc; simp [getPriority, binLB]
  | or a b iha ihb =>
    intro c hc
    simp only [spineOps, List.mem_append, List.mem_singleton] at hc
    rcases hc with hc | hc
    · by_cases hpar : parenAt b 20 = true
      · rw [hpar] at hc; simp at hc
      · rw [if_neg (by simp [hpar])] at hc
        have h1 := ihb c hc
        have h2 := (lb_not_paren20 b (by simpa using hpar)).1
        simp only [binLB]
        omega
    · subst hc; simp [getPriority, binLB]
  | imp a b iha ihb =>
    intro c hc
    simp only [spineOps, List.mem_append, List.mem_singleton] at hc
    rcases hc with hc | hc
    · by_cases hpar : parenAt b 5 = true
      · rw [hpar] at hc; simp at hc
      · rw [if_neg (by simp [hpar])] at hc
        have h1 := ihb c hc
        have h2 := (lb_not_paren5 b (by simpa using hpar)).1
        simp only [binLB]
        omega
    · subst hc; simp [getPriority, binLB]

theorem paren_not_mem_spine (e : Expr) : '(' ∉ spineOps e := by
  intro hmem
  have h1 := spineOps_lb e '(' hmem
  have h2 := binLB_pos e
  rw [show getPriority '(' = 0 by decide] at h1
  omega

theorem headOK_mono {ops : List Char} {m m' : Nat} (h : headOK ops m) (hm : m ≤ m') :
    headOK ops m' := by
  cases ops with
  | nil => trivial
  | cons c cs =>
    rcases h with h | h
    · exact Or.inl h
    · exact Or.inr (by omega)

theorem headOK_paren (ops : List Char) (m : Nat) : headOK ('(' :: ops) m := Or.inl rfl

theorem headOK_lt (c : Char) (ops : List Char) (m : Nat) (h : getPriority c < m) :
    headOK (c :: ops) m := Or.inr h

/-! Single-step unfoldings of the character loop of infixToPrefix. -/

theorem itpLoop_paren_open (rest : List Char) (ops : List Char) (opnds : List (List Char)) :
    itpLoop ('(' :: rest) ops opnds = itpLoop rest ('(' :: ops) opnds := by
  simp [itpLoop]

theorem itpLoop_paren_close (rest : List Char) (ops : List Char) (opnds : List (List Char)) :
    itpLoop (')' :: rest) ops opnds =
      match closeParen ops opnds with
      | .crash => .crash
      | .ok (ops', opnds') => itpLoop rest ops' opnds' := by
  simp [itpLoop]

theorem itpLoop_operand (c : Char) (h1 : ¬ (c = '(')) (h2 : ¬ (c = ')'))
    (h3 : isBinaryOperator c = false) (h4 : isUnaryOperator c = false)
    (rest : List Char) (ops : List Char) (opnds : List (List Char)) :
    itpLoop (c :: rest) ops opnds = itpLoop rest ops ([c] :: opnds) := by
  simp [itpLoop, h1, h2, h3, h4]

theorem itpLoop_bin (c : Char) (h1 : ¬ (c = '(')) (h2 : ¬ (c = ')'))
    (h3 : isBinaryOperator c = true)
    (rest : List Char) (ops : List Char) (opnds : List (List Char)) :
    itpLoop (c :: rest) ops opnds =
      match popReduce c ops opnds with
      | .crash => .crash
      | .ok (ops', opnds') => itpLoop rest (c :: ops') opnds' := by
  simp [itpLoop, h1, h2, h3]

theorem itpLoop_un (c : Char) (h1 : ¬ (c = '(')) (h2 : ¬ (c = ')'))
    (h3 : isBinaryOperator c = false) (h4 : isUnaryOperator c = true)
    (rest : List Char) (ops : List Char) (opnds : List (List Char)) :
    itpLoop (c :: rest) ops opnds = itpLoop rest (c :: ops) opnds := by
  simp [itpLoop, h1, h2, h3, h4]

theorem itpLoop_close_ok {ops : List Char} {opnds : List (List Char)} {ops' : List Char}
    {opnds' : List (List Char)} (hclose : closeParen ops opnds = .ok (ops', opnds'))
    (rest : List Char) :
    itpLoop (')' :: rest) ops opnds = itpLoop rest ops' opnds' := by
  simp [itpLoop, hclose]

theorem itpLoop_bin_ok (c : Char) (h1 : ¬ (c = '(')) (h2 : ¬ (c = ')'))
    (h3 : isBinaryOperator c = true) {ops : List Char} {opnds : List (List Char)}
    {ops' : List Char} {opnds' : List (List Char)}
    (hpop : popReduce c ops opnds = .ok (ops', opnds')) (rest : List Char) :
    itpLoop (c :: rest) ops opnds = itpLoop rest (c :: ops') opnds' := by
  simp [itpLoop, h1, h2, h3, hpop]

theorem goodChar_facts (c : Char) (hg : goodChar c = true) :
    ¬(c = '(') ∧ ¬(c = ')') ∧ isBinaryOperator c = false ∧ isUnaryOperator c = false ∧
      isSym c = false := by
  simp only [goodChar, Bool.and_eq_true, Bool.not_eq_true'] at hg
  obtain ⟨⟨⟨⟨⟨⟨⟨ht, hc⟩, hv⟩, hi⟩, hop⟩, hcp⟩, hsp⟩, hda⟩ := hg
  refine ⟨?_, ?_, ?_, ?_, ?_⟩
  · intro hh; rw [hh] at hop; simp at hop
  · intro hh; rw [hh] at hcp; simp at hcp
  · simp [isBinaryOperator, hi, hv, hc]
  · simp [isUnaryOperator, ht]
  · simp [isSym, ht, hc, hv, hi]

/-- Consuming the rendering of a binary node `a sym b` (with operand
parenthesization decided at render priority `pr`): the left operand is
consumed, collapsed by the operator's pop-loop, the operator is pushed, and
the right operand's spine remains on top. -/
theorem consume_bin (a b : Expr) (sym : Char) (pr : Nat)
    (hbin : isBinaryOperator sym = true)
    (hno : ¬ (sym = '(')) (hnc : ¬ (sym = ')'))
    (hpp : 1 ≤ getPriority sym)
    (hlba : parenAt a pr = false → getPriority sym ≤ binLB a ∧ getPriority sym ≤ pLow a)
    (hlbb : parenAt b pr = false → getPriority sym < pLow b)
    (iha : ∀ (cs ops : List Char) (opnds : List (List Char)), headOK ops (pLow a) →
      itpLoop (strNS a ++ cs) ops opnds = itpLoop cs (spineOps a ++ ops) (spineOpnds a ++ opnds))
    (ihb : ∀ (cs ops : List Char) (opnds : List (List Char)), headOK ops (pLow b) →
      itpLoop (strNS b ++ cs) ops opnds = itpLoop cs (spineOps b ++ ops) (spineOpnds b ++ opnds))
    (cs ops : List Char) (opnds : List (List Char))
    (hhead : headOK ops (getPriority sym)) :
    itpLoop ((wrapIf (parenAt a pr) (strNS a) ++ sym :: wrapIf (parenAt b pr) (strNS b)) ++ cs)
        ops opnds =
      itpLoop cs
        (((if parenAt b pr then [] else spineOps b) ++ [sym]) ++ ops)
        (((if parenAt b pr then [polish b] else spineOpnds b) ++ [polish a]) ++ opnds) := by
  have stage1 :
      itpLoop ((wrapIf (parenAt a pr) (strNS a) ++ sym :: wrapIf (parenAt b pr) (strNS b)) ++ cs)
          ops opnds =
        itpLoop (wrapIf (parenAt b pr) (strNS b) ++ cs) (sym :: ops) (polish a :: opnds) := by
    by_cases hparA : parenAt a pr = true
    · rw [hparA]
      have hshape :
          (wrapIf true (strNS a) ++ sym :: wrapIf (parenAt b pr) (strNS b)) ++ cs =
            '(' :: (strNS a ++ (')' :: (sym :: (wrapIf (parenAt b pr) (strNS b) ++ cs)))) := by
        simp [wrapIf]
      rw [hshape, itpLoop_paren_open, iha _ _ _ (headOK_paren _ _),
        itpLoop_close_ok
          (closeParen_of_drain (spineOps a) _ _ ops (paren_not_mem_spine a)
            (drainOps_spine a opnds))]
      have hpop : popReduce sym ops (polish a :: opnds) = .ok (ops, polish a :: opnds) := by
        simpa using
          popReduce_stop sym hpp [] (polish a :: opnds) (polish a :: opnds) ops
            (by intro c hc; simp at hc) hhead rfl
      rw [itpLoop_bin_ok sym hno hnc hbin hpop]
    · have hparA' : parenAt a pr = false := by simpa using hparA
      rw [hparA']
      have hshape :
          (wrapIf false (strNS a) ++ sym :: wrapIf (parenAt b pr) (strNS b)) ++ cs =
            strNS a ++ (sym :: (wrapIf (parenAt b pr) (strNS b) ++ cs)) := by
        simp [wrapIf]
      rw [hshape, iha _ _ _ (headOK_mono hhead (hlba hparA').2)]
      have hpop : popReduce sym (spineOps a ++ ops) (spineOpnds a ++ opnds) =
          .ok (ops, polish a :: opnds) :=
        popReduce_stop sym hpp (spineOps a) _ _ ops
          (fun c hc => le_trans (hlba hparA').1 (spineOps_lb a c hc)) hhead
          (drainOps_spine a opnds)
      rw [itpLoop_bin_ok sym hno hnc hbin hpop]
  rw [stage1]
  by_cases hparB : parenAt b pr = true
  · rw [hparB]
    have hshape : wrapIf true (strNS b) ++ cs = '(' :: (strNS b ++ (')' :: cs)) := by
      simp [wrapIf]
    rw [hshape, itpLoop_paren_open, ihb _ _ _ (headOK_paren _ _),
      itpLoop_close_ok
        (closeParen_of_drain (spineOps b) _ _ (sym :: ops) (paren_not_mem_spine b)
          (drainOps_spine b (polish a :: opnds)))]
    simp
  · have hparB' : parenAt b pr = false := by simpa using hparB
    rw [hparB']
    have hh : headOK (sym :: ops) (pLow b) := headOK_lt _ _ _ (hlbb hparB')
    rw [show wrapIf false (strNS b) ++ cs = strNS b ++ cs from by simp [wrapIf],
      ihb _ _ _ hh]
    simp

/-- Consuming the space-free rendering of a pure-grammar, left-associated
expression from any state whose operator stack satisfies `headOK` leaves
exactly the expression's spine on the two stacks. -/
theorem itpLoop_consume : ∀ (e : Expr), pureGrammar e = true → leftAssocOK e = true →
    ∀ (cs ops : List Char) (opnds : List (List Char)), headOK ops (pLow e) →
      itpLoop (strNS e ++ cs) ops opnds =
        itpLoop cs (spineOps e ++ ops) (spineOpnds e ++ opnds) := by
  intro e
  induction e with
  | atom n =>
    intro hp _ cs ops opnds _
    cases hd : n.data with
    | nil => simp [pureGrammar, hd] at hp
    | cons c tl =>
      cases tl with
      | cons _ _ => simp [pureGrammar, hd] at hp
      | nil =>
        have hg : goodChar c = true := by simpa [pureGrammar, hd] using hp
        obtain ⟨h1, h2, h3, h4, _⟩ := goodChar_facts c hg
        have hstr : strNS (Expr.atom n) = [c] := by simp [strNS, hd]
        rw [hstr, show ([c] : List Char) ++ cs = c :: cs from rfl,
          itpLoop_operand c h1 h2 h3 h4]
        simp [spineOps, spineOpnds, hd]
  | contr => intro hp; simp [pureGrammar] at hp
  | not a ih =>
    intro hp hl cs ops opnds _
    have hpa : pureGrammar a = true := by simpa [pureGrammar] using hp
    have hla : leftAssocOK a = true := by simpa [leftAssocOK] using hl
    have step0 : strNS (Expr.not a) ++ cs = '~' :: (wrapIf (parenAt a 60) (strNS a) ++ cs) := by
      simp [strNS]
    rw [step0, itpLoop_un '~' (by decide) (by decide) (by decide) (by decide)]
    by_cases hpar : parenAt a 60 = true
    · rw [hpar]
      have hshape : wrapIf true (strNS a) ++ cs = '(' :: (strNS a ++ (')' :: cs)) := by
        simp [wrapIf]
      rw [hshape, itpLoop_paren_open, ih hpa hla _ _ _ (headOK_paren _ _),
        itpLoop_close_ok
          (closeParen_of_drain (spineOps a) _ _ ('~' :: ops) (paren_not_mem_spine a)
            (drainOps_spine a opnds))]
      simp [spineOps, spineOpnds, hpar]
    · have hpar' : parenAt a 60 = false := by simpa using hpar
      rw [hpar']
      have hh : headOK ('~' :: ops) (pLow a) := by
        rw [pLow_not_paren60 a hpar']
        exact headOK_lt _ _ _ (by rw [show getPriority '~' = 4 by decide]; omega)
      rw [show wrapIf false (strNS a) ++ cs = strNS a ++ cs from by simp [wrapIf],
        ih hpa hla _ _ _ hh]
      simp [spineOps, spineOpnds, hpar']
  | and a b iha ihb =>
    intro hp hl cs ops opnds hhead
    have hp' : pureGrammar a = true ∧ pureGrammar b = true := by
      simpa [pureGrammar, Bool.and_eq_true] using hp
    have hl' : (leftAssocOK a = true ∧ leftAssocOK b = true) ∧ notAndHead b = true := by
      simpa [leftAssocOK, Bool.and_eq_true] using hl
    have hshape : strNS (Expr.and a b) ++ cs =
        (wrapIf (parenAt a 50) (strNS a) ++ '^' :: wrapIf (parenAt b 50) (strNS b)) ++ cs := by
      simp [strNS]
    rw [hshape,
      consume_bin a b '^' 50 (by decide) (by decide) (by decide) (by decide)
        (fun hf => by rw [show getPriority '^' = 3 by decide]; exact lb_not_paren50 a hf)
        (fun hf => by
          rw [show getPriority '^' = 3 by decide]; exact right_not_paren50 b hf hl'.2)
        (iha hp'.1 hl'.1.1) (ihb hp'.2 hl'.1.2) cs ops opnds
        (by rw [show getPriority '^' = 3 by decide]; exact hhead)]
    simp [spineOps, spineOpnds]
  | or a b iha ihb =>
    intro hp hl cs ops opnds hhead
    have hp' : pureGrammar a = true ∧ pureGrammar b = true := by
      simpa [pureGrammar, Bool.and_eq_true] using hp
    have hl' : (leftAssocOK a = true ∧ leftAssocOK b = true) ∧ notOrHead b = true := by
      simpa [leftAssocOK, Bool.and_eq_true] using hl
    have hshape : strNS (Expr.or a b) ++ cs =
        (wrapIf (parenAt a 20) (strNS a) ++ 'v' :: wrapIf (parenAt b 20) (strNS b)) ++ cs := by
      simp [strNS]
    rw [hshape,
      consume_bin a b 'v' 20 (by decide) (by decide) (by decide) (by decide)
        (fun hf => by rw [show getPriority 'v' = 2 by decide]; exact lb_not_paren20 a hf)
        (fun hf => by
          rw [show getPriority 'v' = 2 by decide]; exact right_not_paren20 b hf hl'.2)
        (iha hp'.1 hl'.1.1) (ihb hp'.2 hl'.1.2) cs ops opnds
        (by rw [show getPriority 'v' = 2 by decide]; exact hhead)]
    simp [spineOps, spineOpnds]
  | imp a b iha ihb =>
    intro hp hl cs ops opnds hhead
    have hp' : pureGrammar a = true ∧ pureGrammar b = true := by
      simpa [pureGrammar, Bool.and_eq_true] using hp
    have hl' : (leftAssocOK a = true ∧ leftAssocOK b = true) ∧ notImpHead b = true := by
      simpa [leftAssocOK, Bool.and_eq_true] using hl
    have hshape : strNS (Expr.imp a b) ++ cs =
        (wrapIf (parenAt a 5) (strNS a) ++ '→' :: wrapIf (parenAt b 5) (strNS b)) ++ cs := by
      simp [strNS]
    rw [hshape,
      consume_bin a b '→' 5 (by decide) (by decide) (by decide) (by decide)
        (fun hf => by rw [show getPriority '→' = 1 by decide]; exact lb_not_paren5 a hf)
        (fun hf => by
          rw [show getPriority '→' = 1 by decide]; exact right_not_paren5 b hf hl'.2)
        (iha hp'.1 hl'.1.1) (ihb hp'.2 hl'.1.2) cs ops opnds
        (by rw [show getPriority '→' = 1 by decide]; exact hhead)]
    simp [spineOps, spineOpnds]

/-- infixToPrefix maps the space-free rendering of a pure-grammar,
left-associated expression to its Polish encoding. -/
theorem itp_strNS (e : Expr) (hp : pureGrammar e = true) (hl : leftAssocOK e = true) :
    itp (strNS e) = .ok (polish e) := by
  have h0 : strNS e = strNS e ++ [] := by simp
  have h1 : itpLoop (strNS e) [] [] = .ok (spineOps e, spineOpnds e) := by
    rw [h0, itpLoop_consume e hp hl [] [] [] trivial]
    simp [itpLoop]
  have h2 : drainOps (spineOps e) (spineOpnds e) = .ok [polish e] := by
    have := drainOps_spine e []
    simpa using this
  simp [itp, h1, h2]

/-! ### Tree-construction lemmas: parseExpr's second phase on Polish strings -/

theorem treeLoop_sym (c : Char) (h : isSym c = true) (cs : List Char) (stack : List Frame) :
    treeLoop (c :: cs) stack = treeLoop cs (⟨FrameHead.opTag c, []⟩ :: stack) := by
  simp [treeLoop, h]

theorem treeLoop_atomChar (c : Char) (h : isSym c = false) (cs : List Char)
    (f : Frame) (fs : List Frame) :
    treeLoop (c :: cs) (f :: fs) =
      match cascadeInto (Expr.atom (String.mk [c])) (f :: fs) with
      | Sum.inl r => some r
      | Sum.inr st => treeLoop cs st := by
  simp [treeLoop, h]

/-- Consuming the Polish encoding of a pure-grammar expression on a non-empty
frame stack is the same as appending the expression as a child of the top
frame and cascading. -/
theorem treeLoop_consume : ∀ (e : Expr), pureGrammar e = true →
    ∀ (cs : List Char) (f : Frame) (fs : List Frame),
      treeLoop (polish e ++ cs) (f :: fs) =
        match cascadeInto e (f :: fs) with
        | Sum.inl r => some r
        | Sum.inr st => treeLoop cs st := by
  intro e
  induction e with
  | atom n =>
    intro hp cs f fs
    obtain ⟨dat⟩ := n
    cases hd : dat with
    | nil => subst hd; simp [pureGrammar] at hp
    | cons c tl =>
      cases tl with
      | cons _ _ => subst hd; simp [pureGrammar] at hp
      | nil =>
        subst hd
        have hg : goodChar c = true := by simpa [pureGrammar] using hp
        obtain ⟨_, _, _, _, h5⟩ := goodChar_facts c hg
        have hpol : polish (Expr.atom ⟨[c]⟩) ++ cs = c :: cs := rfl
        rw [hpol, treeLoop_atomChar c h5 cs f fs]
  | contr => intro hp; simp [pureGrammar] at hp
  | not a ih =>
    intro hp cs f fs
    have hpa : pureGrammar a = true := by simpa [pureGrammar] using hp
    have hpol : polish (Expr.not a) ++ cs = '~' :: (polish a ++ cs) := by simp [polish]
    rw [hpol, treeLoop_sym '~' (by decide), ih hpa cs ⟨FrameHead.opTag '~', []⟩ (f :: fs)]
    rfl
  | and a b iha ihb =>
    intro hp cs f fs
    have hp' : pureGrammar a = true ∧ pureGrammar b = true := by
      simpa [pureGrammar, Bool.and_eq_true] using hp
    have hpol : polish (Expr.and a b) ++ cs = '^' :: (polish a ++ (polish b ++ cs)) := by
      simp [polish]
    rw [hpol, treeLoop_sym '^' (by decide),
      iha hp'.1 (polish b ++ cs) ⟨FrameHead.opTag '^', []⟩ (f :: fs)]
    have hred : cascadeInto a (⟨FrameHead.opTag '^', []⟩ :: f :: fs) =
        Sum.inr (⟨FrameHead.opTag '^', [a]⟩ :: f :: fs) := rfl
    rw [hred]
    rw [show (match (Sum.inr (⟨FrameHead.opTag '^', [a]⟩ :: f :: fs) :
          Sum Expr (List Frame)) with
        | Sum.inl r => some r
        | Sum.inr st => treeLoop (polish b ++ cs) st) =
          treeLoop (polish b ++ cs) (⟨FrameHead.opTag '^', [a]⟩ :: f :: fs) from rfl]
    rw [ihb hp'.2 cs ⟨FrameHead.opTag '^', [a]⟩ (f :: fs)]
    rfl
  | or a b iha ihb =>
    intro hp cs f fs
    have hp' : pureGrammar a = true ∧ pureGrammar b = true := by
      simpa [pureGrammar, Bool.and_eq_true] using hp
    have hpol : polish (Expr.or a b) ++ cs = 'v' :: (polish a ++ (polish b ++ cs)) := by
      simp [polish]
    rw [hpol, treeLoop_sym 'v' (by decide),
      iha hp'.1 (polish b ++ cs) ⟨FrameHead.opTag 'v', []⟩ (f :: fs)]
    have hred : cascadeInto a (⟨FrameHead.opTag 'v', []⟩ :: f :: fs) =
        Sum.inr (⟨FrameHead.opTag 'v', [a]⟩ :: f :: fs) := rfl
    rw [hred]
    rw [show (match (Sum.inr (⟨FrameHead.opTag 'v', [a]⟩ :: f :: fs) :
          Sum Expr (List Frame)) with
        | Sum.inl r => some r
        | Sum.inr st => treeLoop (polish b ++ cs) st) =
          treeLoop (polish b ++ cs) (⟨FrameHead.opTag 'v', [a]⟩ :: f :: fs) from rfl]
    rw [ihb hp'.2 cs ⟨FrameHead.opTag 'v', [a]⟩ (f :: fs)]
    rfl
  | imp a b iha ihb =>
    intro hp cs f fs
    have hp' : pureGrammar a = true ∧ pureGrammar b = true := by
      simpa [pureGrammar, Bool.and_eq_true] using hp
    have hpol : polish (Expr.imp a b) ++ cs = '→' :: (polish a ++ (polish b ++ cs)) := by
      simp [polish]
    rw [hpol, treeLoop_sym '→' (by decide),
      iha hp'.1 (polish b ++ cs) ⟨FrameHead.opTag '→', []⟩ (f :: fs)]
    have hred : cascadeInto a (⟨FrameHead.opTag '→', []⟩ :: f :: fs) =
        Sum.inr (⟨FrameHead.opTag '→', [a]⟩ :: f :: fs) := rfl
    rw [hred]
    rw [show (match (Sum.inr (⟨FrameHead.opTag '→', [a]⟩ :: f :: fs) :
          Sum Expr (List Frame)) with
        | Sum.inl r => some r
        | Sum.inr st => treeLoop (polish b ++ cs) st) =
          treeLoop (polish b ++ cs) (⟨FrameHead.opTag '→', [a]⟩ :: f :: fs) from rfl]
    rw [ihb hp'.2 cs ⟨FrameHead.opTag '→', [a]⟩ (f :: fs)]
    rfl

/-- parseExpr's second phase rebuilds a compound pure-grammar expression from
its Polish encoding. -/
theorem treeLoop_polish (e : Expr) (hp : pureGrammar e = true) (hc : isCompound e = true) :
    treeLoop (polish e) [] = some e := by
  cases e with
  | atom n => simp [isCompound] at hc
  | contr => simp [isCompound] at hc
  | not a =>
    have hpa : pureGrammar a = true := by simpa [pureGrammar] using hp
    have h := treeLoop_consume a hpa [] ⟨FrameHead.opTag '~', []⟩ []
    rw [List.append_nil] at h
    have h0 : treeLoop (polish (Expr.not a)) [] = treeLoop (polish a) [⟨FrameHead.opTag '~', []⟩] := by
      rw [show polish (Expr.not a) = '~' :: polish a from rfl, treeLoop_sym '~' (by decide)]
    rw [h0, h]
    rfl
  | and a b =>
    have hp' : pureGrammar a = true ∧ pureGrammar b = true := by
      simpa [pureGrammar, Bool.and_eq_true] using hp
    have key1 : treeLoop (polish a ++ polish b) [⟨FrameHead.opTag '^', []⟩] =
        treeLoop (polish b) [⟨FrameHead.opTag '^', [a]⟩] :=
      (treeLoop_consume a hp'.1 (polish b) ⟨FrameHead.opTag '^', []⟩ []).trans rfl
    have key2 : treeLoop (polish b) [⟨FrameHead.opTag '^', [a]⟩] = some (Expr.and a b) := by
      have h := treeLoop_consume b hp'.2 [] ⟨FrameHead.opTag '^', [a]⟩ []
      rw [List.append_nil] at h
      exact h.trans rfl
    rw [show polish (Expr.and a b) = '^' :: (polish a ++ polish b) from rfl,
      treeLoop_sym '^' (by decide), key1, key2]
  | or a b =>
    have hp' : pureGrammar a = true ∧ pureGrammar b = true := by
      simpa [pureGrammar, Bool.and_eq_true] using hp
    have key1 : treeLoop (polish a ++ polish b) [⟨FrameHead.opTag 'v', []⟩] =
        treeLoop (polish b) [⟨FrameHead.opTag 'v', [a]⟩] :=
      (treeLoop_consume a hp'.1 (polish b) ⟨FrameHead.opTag 'v', []⟩ []).trans rfl
    have key2 : treeLoop (polish b) [⟨FrameHead.opTag 'v', [a]⟩] = some (Expr.or a b) := by
      have h := treeLoop_consume b hp'.2 [] ⟨FrameHead.opTag 'v', [a]⟩ []
      rw [List.append_nil] at h
      exact h.trans rfl
    rw [show polish (Expr.or a b) = 'v' :: (polish a ++ polish b) from rfl,
      treeLoop_sym 'v' (by decide), key1, key2]
  | imp a b =>
    have hp' : pureGrammar a = true ∧ pureGrammar b = true := by
      simpa [pureGrammar, Bool.and_eq_true] using hp
    have key1 : treeLoop (polish a ++ polish b) [⟨FrameHead.opTag '→', []⟩] =
        treeLoop (polish b) [⟨FrameHead.opTag '→', [a]⟩] :=
      (treeLoop_consume a hp'.1 (polish b) ⟨FrameHead.opTag '→', []⟩ []).trans rfl
    have key2 : treeLoop (polish b) [⟨FrameHead.opTag '→', [a]⟩] = some (Expr.imp a b) := by
      have h := treeLoop_consume b hp'.2 [] ⟨FrameHead.opTag '→', [a]⟩ []
      rw [List.append_nil] at h
      exact h.trans rfl
    rw [show polish (Expr.imp a b) = '→' :: (polish a ++ polish b) from rfl,
      treeLoop_sym '→' (by decide), key1, key2]

theorem strExpr_ne_nil (e : Expr) (hp : pureGrammar e = true) : strExpr e ≠ [] := by
  cases e with
  | atom n =>
    cases hd : n.data with
    | nil => simp [pureGrammar, hd] at hp
    | cons c tl => simp [strExpr, hd]
  | contr => simp [pureGrammar] at hp
  | not a => simp [strExpr]
  | and a b => simp [strExpr]
  | or a b => simp [strExpr]
  | imp a b => simp [strExpr]

/-- The parse-render round trip for compound pure-grammar, left-associated
expressions. -/
theorem parseExpr_strExpr (e : Expr) (hp : pureGrammar e = true) (hl : leftAssocOK e = true)
    (hc : isCompound e = true) : parseExpr (strExpr e) = .ok (some e) := by
  have hne : (strExpr e).isEmpty = false := by
    cases hx : strExpr e with
    | nil => exact absurd hx (strExpr_ne_nil e hp)
    | cons c cs => rfl
  simp only [parseExpr, hne, Bool.false_eq_true, if_false]
  rw [preprocess_strExpr e hp, itp_strNS e hp hl]
  show PyResult.ok (treeLoop (polish e) []) = PyResult.ok (some e)
  rw [treeLoop_polish e hp hc]

/-! ### Engine lemmas -/

/-- ¬-Intro with an index discharge rejects any candidate whose discharge
index is not in the cited line's assumption set: the set equation
`A(cand) ∪ {i} = A(ref)` cannot hold. -/
theorem not_intro_outside_discharge (p : Proof) (line : ProofLine) (n i : Int) (L : ProofLine)
    (hrefs : line.references = [⟨n, Discharge.index i⟩])
    (hget : pyGet p.lines n = some L)
    (hmem : i ∉ L.assumptions) :
    can_add_not_intro p line = .ok false := by
  simp only [can_add_not_intro, hrefs, hget]
  have hset : ¬ (line.assumptions ∪ {i} = L.assumptions ∧
      line.assumptions.card < L.assumptions.card) := by
    rintro ⟨h1, _⟩
    exact hmem (h1 ▸ Finset.mem_union_right _ (Finset.mem_singleton_self i))
  by_cases hcontr : pyEq L.content Expr.contr = true <;> simp [hcontr, hset]

/-- An accepted non-vacuous ¬-Intro shrinks the assumption set by exactly
one element. -/
theorem not_intro_shrinks (p : Proof) (line : ProofLine) (n i : Int) (L : ProofLine)
    (hrefs : line.references = [⟨n, Discharge.index i⟩])
    (hget : pyGet p.lines n = some L)
    (hacc : can_add_not_intro p line = .ok true) :
    line.assumptions.card + 1 = L.assumptions.card := by
  simp only [can_add_not_intro, hrefs, hget] at hacc
  split at hacc
  · split at hacc
    · rename_i hcond
      obtain ⟨h1, h2⟩ := hcond
      by_cases hi : i ∈ line.assumptions
      · have hunion : line.assumptions ∪ {i} = line.assumptions := by
          apply Finset.union_eq_left.mpr
          simp [hi]
        rw [hunion] at h1
        rw [h1] at h2
        omega
      · have hcard : (line.assumptions ∪ {i}).card = line.assumptions.card + 1 := by
          rw [Finset.union_comm, ← Finset.insert_eq, Finset.card_insert_of_not_mem hi]
        rw [h1] at hcard
        omega
    · exact absurd hacc (by simp)
  · exact absurd hacc (by simp)

/-- An accepted non-vacuous →-Intro whose discharge index belongs to the
cited line's assumption set shrinks the assumption set by exactly one
element. -/
theorem implies_intro_shrinks (p : Proof) (line : ProofLine) (n i : Int) (L : ProofLine)
    (hrefs : line.references = [⟨n, Discharge.index i⟩])
    (hget : pyGet p.lines n = some L)
    (hacc : can_add_implies_intro p line = .ok true)
    (hmem : i ∈ L.assumptions) :
    line.assumptions.card + 1 = L.assumptions.card := by
  simp only [can_add_implies_intro, hrefs, hget] at hacc
  split at hacc
  · rename_i ll rr heq
    split at hacc
    · rename_i h1
      have hcard := Finset.card_erase_of_mem hmem
      have hpos : 0 < L.assumptions.card := Finset.card_pos.mpr ⟨i, hmem⟩
      rw [h1, hcard]
      omega
    · exact absurd hacc (by simp)
  · exact absurd hacc (by simp)

/-- Every `can_add_or_intro` run returns `False` or raises: the assumption
check compares a set with a `ProofLine` object and never succeeds. -/
theorem or_intro_never_accepts (p : Proof) (line : ProofLine) :
    can_add_or_intro p line = .ok false ∨ can_add_or_intro p line = .crash := by
  unfold can_add_or_intro
  split
  · split
    · split
      · split
        · right; rfl
        · left; simp [setEqProofLine]
      · left; rfl
    · left; rfl
  · left; rfl

/-- The assumption-map length always equals the number of accepted lines
whose rule is `ASSUMPTION`. -/
theorem assumption_map_counts (p : Proof) (h : Reachable p) :
    p.assumption_map.length =
      p.lines.countP (fun l => decide (l.rule_used = Rule.ASSUMPTION)) := by
  induction h with
  | init premises goal =>
    have hall : ∀ l ∈ (mkProof premises goal).lines,
        (fun l : ProofLine => decide (l.rule_used = Rule.ASSUMPTION)) l = true := by
      intro l hl
      simp only [mkProof, List.mem_map] at hl
      obtain ⟨x, _, hfx⟩ := hl
      rw [← hfx]
      simp
    rw [List.countP_eq_length.mpr hall]
    simp [mkProof]
  | step p line b p' hr htry ih =>
    unfold try_add_line at htry
    cases hcan : can_add_line p line with
    | crash => rw [hcan] at htry; exact absurd htry (by simp)
    | ok bb =>
      rw [hcan] at htry
      cases bb with
      | false =>
        simp only [PyResult.ok.injEq, Prod.mk.injEq] at htry
        rw [← htry.2]
        exact ih
      | true =>
        simp only [PyResult.ok.injEq, Prod.mk.injEq] at htry
        rw [← htry.2]
        by_cases hrule : line.rule_used = Rule.ASSUMPTION
        · simp [hrule, List.countP_append, List.countP_cons, ih]
        · simp [hrule, List.countP_append, List.countP_cons, ih]

/-- An accepted `ASSUMPTION` line grows the assumption map by exactly one
entry, and its sole assumption index is the map's length before the
append. -/
theorem assumption_line_fresh (p : Proof) (line : ProofLine) (p' : Proof)
    (htry : try_add_line p line = .ok (true, p'))
    (hrule : line.rule_used = Rule.ASSUMPTION) :
    p'.assumption_map.length = p.assumption_map.length + 1 ∧
      line.assumptions = {(p.assumption_map.length : Int)} := by
  unfold try_add_line at htry
  cases hcan : can_add_line p line with
  | crash => rw [hcan] at htry; exact absurd htry (by simp)
  | ok bb =>
    rw [hcan] at htry
    cases bb with
    | false => exact absurd htry (by simp)
    | true =>
      simp only [PyResult.ok.injEq, Prod.mk.injEq, true_and] at htry
      have hassum : can_add_assumption p line = .ok true := by
        rw [← hcan, can_add_line, hrule]
      have hsingle : line.assumptions = {(p.assumption_map.length : Int)} := by
        unfold can_add_assumption at hassum
        split at hassum
        · assumption
        · exact absurd hassum (by simp)
      refine ⟨?_, hsingle⟩
      rw [← htry]
      simp [hrule]

/-- Python `l[-1]` on a list of proof lines is the last accepted line
(`None` stands for the `IndexError` on an empty list). -/
theorem pyGet_neg_one (l : List ProofLine) : pyGet l (-1) = l.getLast? := by
  cases l with
  | nil => rfl
  | cons x xs =>
    unfold pyGet
    have h1 : ((-1 : Int) < 0) = True := by simp
    simp only [h1, if_true]
    have h2 : (((x :: xs).length : Int) + -1 < 0) = False := by
      simp only [List.length_cons, eq_iff_iff, iff_false, not_lt]
      push_cast
      omega
    simp only [h2, if_false]
    have h3 : (((x :: xs).length : Int) + -1).toNat = xs.length := by
      simp only [List.length_cons]
      omega
    rw [h3, List.getLast?_eq_getElem?]
    simp

/-! ### Claim theorems -/

/-- C1: contrary to the claim that `can_add_line` accepts every ∨-Intro line
meeting the rule's contract, the ∨-Intro check rejects the contract-meeting
candidate `{0} ⊢ p ∨ q from line 0` over premises `[p]`, and in fact every
run of `can_add_or_intro` returns `False` or raises: line 333 compares the
candidate's assumption set with the referenced `ProofLine` object itself,
which is never equal. -/
theorem claim_C1_or_intro_contract :
    can_add_line orIntroProof orIntroCand = PyResult.ok false ∧
    ∀ (p : Proof) (line : ProofLine),
      can_add_or_intro p line = .ok false ∨ can_add_or_intro p line = .crash :=
  ⟨by decide, or_intro_never_accepts⟩

/-- C2: contrary to the claim that ∨-Elim accepts either assignment of the
two discharged assumptions to the disjunction's branches, the check accepts
the assignment `AssumptionMap[idx2] = left, AssumptionMap[idx3] = right` but
rejects the swapped assignment (`idx2 ↦ right`, `idx3 ↦ left`) of the very
same reachable state: line 359 tests `discharge_cont2` against both
branches. -/
theorem claim_C2_or_elim_swapped_assignment :
    can_add_line orElimProof orElimStraight = PyResult.ok true ∧
    can_add_line orElimProof orElimSwapped = PyResult.ok false := by
  constructor <;> decide

/-- C3 counterexample: IMPLIES_INTRO, RAA and OR_ELIM candidates whose
non-vacuous discharge index is not in the cited line's assumption set are
accepted (the claim says every such candidate is rejected).  Line 0 of
`pqProof` has assumption set `{0}`, yet discharging index 1 is accepted by
all three rules. -/
theorem claim_C3_counterexample :
    can_add_line pqProof impCandOutside = PyResult.ok true ∧
    pyGet pqProof.lines 0 = some premiseLineP ∧
    decide ((1 : Int) ∈ premiseLineP.assumptions) = false ∧
    can_add_line pqProof raaCandOutside = PyResult.ok true ∧
    can_add_line orElimProof orElimStraight = PyResult.ok true := by
  refine ⟨by decide, by decide, by decide, by decide, by decide⟩

/-- C3 (amended): only ¬-Intro enforces the membership requirement — a
NOT_INTRO candidate citing a line with a non-vacuous discharge index that is
not a member of the cited line's assumption set is always rejected. -/
theorem claim_C3_amended (p : Proof) (line : ProofLine) (n i : Int) (L : ProofLine)
    (hrefs : line.references = [⟨n, Discharge.index i⟩])
    (hget : pyGet p.lines n = some L)
    (hmem : i ∉ L.assumptions) :
    can_add_not_intro p line = .ok false :=
  not_intro_outside_discharge p line n i L hrefs hget hmem

/-- C3 witness: the amended theorem applied to a concrete NOT_INTRO
candidate discharging index 1 against line 0 of `pqProof`. -/
theorem claim_C3_witness :
    decide ((1 : Int) ∈ premiseLineP.assumptions) = false ∧
    can_add_not_intro pqProof notIntroCandOutside = PyResult.ok false :=
  ⟨by decide,
   claim_C3_amended pqProof notIntroCandOutside 0 1 premiseLineP (by decide) (by decide)
     (by decide)⟩

/-- C4: contrary to the claim that a reference index at least the number of
accepted lines makes `can_add_line` return `False`, the ∧-Elim candidate
citing line 1 of a one-line proof makes `can_add_line` raise `IndexError`
(`PyResult.crash`): no rule check validates reference bounds before
indexing `self.lines`. -/
theorem claim_C4_forward_reference_crash :
    can_add_line pProof fwdRefCand = PyResult.crash := by decide

/-- C5: the empty string is a parse failure as claimed, but contrary to the
claim that malformed input yields a parse failure rather than a crash or a
partially built result, `parseExpr("(")` raises `IndexError` inside
infixToPrefix (popping an empty operand stack) and `parseExpr("p^qr")`
returns the partially built `And(q, r)`, silently dropping `p`. -/
theorem claim_C5_parse_failures :
    parseExpr [] = PyResult.ok Option.none ∧
    parseExpr ['('] = PyResult.crash ∧
    parseExpr ['p', '^', 'q', 'r'] =
      PyResult.ok (some (Expr.and (Expr.atom "q") (Expr.atom "r"))) := by
  refine ⟨by decide, by decide, by decide⟩

/-- C6 counterexample: the round trip fails for a bare atom — `str(Atom p)`
is `"p"`, whose parse is `None` — and for a same-connective right-nested
operand — `str(p ∨ (q ∨ r))` is `"p v q v r"`, which reparses
left-associated to `(p ∨ q) ∨ r`, not equal (in the code's own `==`) to the
original; both inputs are built purely from single-character atoms and the
grammar's connectives. -/
theorem claim_C6_counterexample :
    pureGrammar pAtom = true ∧
    parseExpr (strExpr pAtom) = PyResult.ok Option.none ∧
    pureGrammar rightNested = true ∧
    parseExpr (strExpr rightNested) = PyResult.ok (some leftNested) ∧
    pyEq leftNested rightNested = false := by
  refine ⟨by decide, by decide, by decide, by decide, by decide⟩

/-- C6 (amended): for every expression built from single-character atoms
(characters other than the connective symbols, parentheses, space and `-`)
and the grammar's connectives, whose top node is a connective and in which
no conjunction, disjunction or implication has a right operand headed by
the same connective, `parseExpr(str(expr))` returns the expression itself. -/
theorem claim_C6_amended_roundtrip (e : Expr) (hp : pureGrammar e = true)
    (hl : leftAssocOK e = true) (hc : isCompound e = true) :
    parseExpr (strExpr e) = PyResult.ok (some e) :=
  parseExpr_strExpr e hp hl hc

/-- C6 witness: the amended round trip at the specification's scenario-5
tree `~(p v q) ^ (r → s)`. -/
theorem claim_C6_witness :
    pureGrammar sceneFive = true ∧ leftAssocOK sceneFive = true ∧
    isCompound sceneFive = true ∧
    parseExpr (strExpr sceneFive) = PyResult.ok (some sceneFive) :=
  ⟨by decide, by decide, by decide,
   claim_C6_amended_roundtrip sceneFive (by decide) (by decide) (by decide)⟩

/-- C7 counterexample: an accepted non-vacuous →-Intro need not shrink the
assumption set — `impCandOutside` (discharging index 1, not among the cited
line's assumptions) is accepted over `pqProof` with an assumption set of
the same size as the cited line's. -/
theorem claim_C7_counterexample :
    can_add_line pqProof impCandOutside = PyResult.ok true ∧
    pyGet pqProof.lines 0 = some premiseLineP ∧
    impCandOutside.assumptions.card = premiseLineP.assumptions.card := by
  refine ⟨by decide, by decide, by decide⟩

/-- C7 (amended): an accepted non-vacuous ¬-Intro shrinks the assumption
set by exactly one; an accepted non-vacuous →-Intro shrinks it by exactly
one provided its discharge index belongs to the referenced line's
assumption set (otherwise the size is unchanged, as the counterexample
shows). -/
theorem claim_C7_amended :
    (∀ (p : Proof) (line : ProofLine) (n i : Int) (L : ProofLine),
      line.references = [⟨n, Discharge.index i⟩] → pyGet p.lines n = some L →
      can_add_not_intro p line = .ok true →
      line.assumptions.card + 1 = L.assumptions.card) ∧
    (∀ (p : Proof) (line : ProofLine) (n i : Int) (L : ProofLine),
      line.references = [⟨n, Discharge.index i⟩] → pyGet p.lines n = some L →
      can_add_implies_intro p line = .ok true → i ∈ L.assumptions →
      line.assumptions.card + 1 = L.assumptions.card) :=
  ⟨not_intro_shrinks, implies_intro_shrinks⟩

/-- C7 witness: both parts of the amended theorem applied to concretely
accepted ¬-Intro and →-Intro lines. -/
theorem claim_C7_witness :
    (can_add_not_intro contrProof notIntroAccepted = PyResult.ok true ∧
      notIntroAccepted.assumptions.card + 1 = contrLine.assumptions.card) ∧
    (can_add_implies_intro pProof impAccepted = PyResult.ok true ∧
      impAccepted.assumptions.card + 1 = premiseLineP.assumptions.card) :=
  ⟨⟨by decide,
    claim_C7_amended.1 contrProof notIntroAccepted 0 0 contrLine (by decide) (by decide)
      (by decide)⟩,
   ⟨by decide,
    claim_C7_amended.2 pProof impAccepted 0 0 premiseLineP (by decide) (by decide)
      (by decide) (by decide)⟩⟩

/-- C8: in every reachable proof state the assumption-map length equals the
number of accepted lines whose rule is `ASSUMPTION`, and every accepted
`ASSUMPTION` line grows the map by exactly one entry with its sole
assumption index equal to the map's length before the append. -/
theorem claim_C8_invariant (p : Proof) (h : Reachable p) :
    p.assumption_map.length =
      p.lines.countP (fun l => decide (l.rule_used = Rule.ASSUMPTION)) ∧
    ∀ (line : ProofLine) (p' : Proof), try_add_line p line = .ok (true, p') →
      line.rule_used = Rule.ASSUMPTION →
      p'.assumption_map.length = p.assumption_map.length + 1 ∧
        line.assumptions = {(p.assumption_map.length : Int)} :=
  ⟨assumption_map_counts p h,
   fun line p' htry hrule => assumption_line_fresh p line p' htry hrule⟩

/-- C8 witness: the invariant at the initial state `pProof` and the growth
property at the concretely accepted assumption line `assumptionCandQ`. -/
theorem claim_C8_witness :
    pProof.assumption_map.length =
      pProof.lines.countP (fun l => decide (l.rule_used = Rule.ASSUMPTION)) ∧
    (pProofExt.assumption_map.length = pProof.assumption_map.length + 1 ∧
      assumptionCandQ.assumptions = {(pProof.assumption_map.length : Int)}) :=
  ⟨(claim_C8_invariant pProof (Reachable.init [pAtom] pAtom)).1,
   (claim_C8_invariant pProof (Reachable.init [pAtom] pAtom)).2 assumptionCandQ pProofExt
     (by decide) rfl⟩

/-- C9: expression equality relates Bottom only to itself in both
directions — `Contr() == e` holds iff `e` is Bottom, and `e == Contr()`
holds iff `e` is Bottom; in particular an `Atom` named `"⊥"` is not equal
to Bottom in either direction of the comparison (`Contr.__eq__`, running
first under the subclass-priority dispatch, tests
`isinstance(other, Contr)`). -/
theorem claim_C9_bottom_equality :
    (∀ e : Expr, pyEq Expr.contr e = true ↔ e = Expr.contr) ∧
    (∀ e : Expr, pyEq e Expr.contr = true ↔ e = Expr.contr) ∧
    pyEq (Expr.atom "⊥") Expr.contr = false ∧
    pyEq Expr.contr (Expr.atom "⊥") = false := by
  refine ⟨?_, ?_, by decide, by decide⟩
  · intro e; cases e <;> simp [pyEq]
  · intro e; cases e <;> simp [pyEq]

/-- C9 witness: the characterization applied at the atom `"p"`. -/
theorem claim_C9_witness : pyEq Expr.contr (Expr.atom "p") = false := by
  have h := claim_C9_bottom_equality.1 (Expr.atom "p")
  by_cases hb : pyEq Expr.contr (Expr.atom "p") = true
  · exact absurd (h.mp hb) (by decide)
  · simpa using hb

/-- C10: the rule checks resolve a negative reference index by counting from
the end of the accepted lines (`-1` cites the most recently accepted line),
and a candidate citing via a negative index can be accepted: the ∧-Elim
line citing `-1` over a one-premise proof is accepted. -/
theorem claim_C10_negative_reference :
    (∀ l : List ProofLine, pyGet l (-1) = l.getLast?) ∧
    can_add_line andProof negRefCand = PyResult.ok true :=
  ⟨pyGet_neg_one, by decide⟩

end LogicProver
